import Mathlib

/-!
Verification development for the pydantic-wizard repository.

The Python sources under src/pydantic_wizard are shallowly embedded:
pure fragments become Lean functions, stateful fragments thread their
state explicitly, and fallible calls return Option.  Python runtime
values (the Any-typed data flowing through handlers, serializers and
the validation loop) are modelled by the inductive type PyValue below;
Python type annotations by PyType.  Machine floats are modelled as
rationals; where the source performs float arithmetic whose rounding
can matter (timedelta total_seconds and the timedelta constructor), the
model rounds the exact result to 53 significant bits (roundToDouble),
as an IEEE-754 double does.
-/

/-- Model of Python decimal.Decimal finite values: a sign, a coefficient
and an exponent.  CPython stores the coefficient as the digit string of
a natural number (parsing does str(int(intpart + fracpart)), which strips
leading zeros), so a Nat coefficient is an exact model.  Special values
(NaN, infinities) are outside this model. -/
structure PyDecimal where
  sign : Bool
  coeff : Nat
  exp : Int
deriving Repr, DecidableEq

/-- Model of a naive datetime.datetime value (tz-aware values are outside
the model). -/
structure PyDatetime where
  year : Nat
  month : Nat
  day : Nat
  hour : Nat
  minute : Nat
  second : Nat
  microsecond : Nat
deriving Repr, DecidableEq

/-- Model of a datetime.time value. -/
structure PyTime where
  hour : Nat
  minute : Nat
  second : Nat
  microsecond : Nat
deriving Repr, DecidableEq

/-- Model of Python runtime values as they flow through the wizard:
prompt results, defaults, value maps and serialized forms.  A timedelta
is its (possibly negative) count of microseconds, which is exactly how
CPython normalizes it.  A float value carries the exact rational that
the IEEE-754 double denotes. -/
inductive PyValue where
  | undefined
  | vnone
  | vbool (b : Bool)
  | vint (n : Int)
  | vfloat (q : Rat)
  | vstr (s : String)
  | vdecimal (d : PyDecimal)
  | vdatetime (dt : PyDatetime)
  | vtime (t : PyTime)
  | vtimedelta (microseconds : Int)
  | venum (cls member : String) (value : PyValue)
  | vlist (xs : List PyValue)
  | vset (iter : List PyValue)
  | vdict (entries : List (String × PyValue))
  | vmodel (cls : String) (fields : List (String × PyValue))
deriving Repr

/-- Model of Python type annotations as the resolver sees them.  The two
source branches for types.UnionType and typing.Union are textually
identical, so a single union constructor models both spellings.  The
bytes constructor stands for an arbitrary plain class that none of the
recognizers accept. -/
inductive PyType where
  | noneType
  | str
  | int
  | float
  | bool
  | decimal
  | datetime
  | time
  | timedelta
  | bytes
  | anyT
  | enumT (name : String)
  | modelT (name : String)
  | listT (elem : PyType)
  | setT (elem : PyType)
  | dictT (key value : PyType)
  | literalT (vals : List PyValue)
  | unionT (alts : List PyType)
deriving Repr

/-! ## Decimal-digit strings

Shared machinery for str(int) / int(str) round trips, used by the
Decimal string form and by isoformat. -/

/-- Decimal digit characters of a natural number, most significant first
(the output of str on a Python int that is non-negative). -/
def natChars (n : Nat) : List Char :=
  if n = 0 then ['0'] else ((Nat.digits 10 n).map Nat.digitChar).reverse

/-- Numeric value of a list of decimal digit characters, as done by
int(...) on a digit string. -/
def charsVal (cs : List Char) : Nat :=
  cs.foldl (fun a c => 10 * a + (c.toNat - 48)) 0

theorem digitChar_toNat {d : Nat} (h : d < 10) : (Nat.digitChar d).toNat = 48 + d := by
  interval_cases d <;> rfl

theorem digitChar_isDigit {d : Nat} (h : d < 10) : (Nat.digitChar d).isDigit = true := by
  interval_cases d <;> rfl

theorem charsVal_foldl (cs : List Char) (a : Nat) :
    cs.foldl (fun a c => 10 * a + (c.toNat - 48)) a =
      a * 10 ^ cs.length + charsVal cs := by
  induction cs generalizing a with
  | nil => simp [charsVal]
  | cons c cs ih =>
    simp only [List.foldl_cons, charsVal, List.length_cons]
    rw [ih, ih (10 * 0 + (c.toNat - 48))]
    ring

theorem charsVal_append (xs ys : List Char) :
    charsVal (xs ++ ys) = charsVal xs * 10 ^ ys.length + charsVal ys := by
  unfold charsVal
  rw [List.foldl_append, charsVal_foldl]
  rfl

theorem charsVal_replicate_zero (k : Nat) :
    charsVal (List.replicate k '0') = 0 := by
  induction k with
  | zero => rfl
  | succ k ih =>
    rw [List.replicate_succ]
    show charsVal ('0' :: List.replicate k '0') = 0
    unfold charsVal at ih ⊢
    simpa using ih

theorem charsVal_replicate_zero_append (k : Nat) (cs : List Char) :
    charsVal (List.replicate k '0' ++ cs) = charsVal cs := by
  rw [charsVal_append, charsVal_replicate_zero]
  simp

theorem charsVal_natChars (n : Nat) : charsVal (natChars n) = n := by
  unfold natChars
  by_cases h : n = 0
  · subst h; rfl
  · simp only [h, if_false]
    have hd : ∀ d ∈ Nat.digits 10 n, d < 10 := fun d hdm =>
      Nat.digits_lt_base (by norm_num) hdm
    rw [← List.map_reverse]
    have key : ∀ (ds : List Nat), (∀ d ∈ ds, d < 10) →
        charsVal (ds.map Nat.digitChar) = Nat.ofDigits 10 ds.reverse := by
      intro ds
      induction ds with
      | nil => intro _; rfl
      | cons d ds ih =>
        intro hall
        have hd10 : d < 10 := hall d (List.mem_cons_self d ds)
        have : charsVal ((d :: ds).map Nat.digitChar) =
            charsVal ([Nat.digitChar d] ++ ds.map Nat.digitChar) := by rfl
        rw [this, charsVal_append, ih (fun x hx => hall x (List.mem_cons_of_mem d hx))]
        have h1 : charsVal [Nat.digitChar d] = d := by
          show 10 * 0 + ((Nat.digitChar d).toNat - 48) = d
          rw [digitChar_toNat hd10]; omega
        rw [h1]
        rw [List.reverse_cons, Nat.ofDigits_append]
        simp only [Nat.ofDigits_singleton, List.length_reverse, List.length_map]
        ring
    rw [key _ (fun d hdm => hd d (List.mem_reverse.mp hdm)), List.reverse_reverse,
      Nat.ofDigits_digits]

theorem natChars_ne_nil (n : Nat) : natChars n ≠ [] := by
  unfold natChars
  by_cases h : n = 0
  · simp [h]
  · simp only [h, if_false]
    intro hc
    have hlen := congrArg List.length hc
    simp only [List.length_reverse, List.length_map, List.length_nil] at hlen
    exact h (Nat.digits_eq_nil_iff_eq_zero.mp (List.length_eq_zero.mp hlen))

theorem natChars_all_digit (n : Nat) : ∀ c ∈ natChars n, c.isDigit = true := by
  unfold natChars
  by_cases h : n = 0
  · simp [h]
  · simp only [h, if_false]
    intro c hc
    rw [List.mem_reverse, List.mem_map] at hc
    obtain ⟨d, hdm, rfl⟩ := hc
    exact digitChar_isDigit (Nat.digits_lt_base (by norm_num) hdm)

theorem natChars_length_le {n k : Nat} (hk : 1 ≤ k) (h : n < 10 ^ k) :
    (natChars n).length ≤ k := by
  unfold natChars
  by_cases h0 : n = 0
  · simpa [h0] using hk
  · simp only [h0, if_false, List.length_reverse, List.length_map]
    rw [Nat.digits_len 10 n (by norm_num) h0]
    have := Nat.log_lt_of_lt_pow h0 h
    omega

/-! ## Decimal string form and parsing

Models Decimal.__str__ (the branch structure below mirrors the CPython
algorithm: plain form when the exponent is at most zero and the adjusted
exponent is above -6, otherwise scientific notation) and the Decimal
constructor on numeric strings (sign, integer part, optional fraction,
optional exponent; the coefficient is the integer value of the
concatenated digit parts and the stored exponent subtracts the fraction
length). -/

/-- Exponent text in the %+d format used by Decimal.__str__: an explicit
sign character followed by the digits. -/
def signedChars (i : Int) : List Char :=
  (if i < 0 then ['-'] else ['+']) ++ natChars i.natAbs

/-- Scientific-notation mantissa: a point is inserted after the first
digit when the coefficient has more than one digit. -/
def sciMant (ds : List Char) : List Char :=
  match ds with
  | c0 :: c2 :: rest => c0 :: '.' :: c2 :: rest
  | other => other

/-- Adjusted position of the point: exponent plus number of coefficient
digits (leftdigits in the CPython source). -/
def leftDigits (c : Nat) (e : Int) : Int := e + (natChars c).length

/-- Unsigned part of str(Decimal): plain positional form when the
exponent is at most zero and leftdigits is above -6, otherwise
scientific form. -/
def decBody (c : Nat) (e : Int) : List Char :=
  if e ≤ 0 ∧ -6 < leftDigits c e then
    if e = 0 then natChars c
    else if 0 < leftDigits c e then
      (natChars c).take (leftDigits c e).toNat ++ '.' :: (natChars c).drop (leftDigits c e).toNat
    else '0' :: '.' :: (List.replicate (-(leftDigits c e)).toNat '0' ++ natChars c)
  else
    sciMant (natChars c) ++ 'E' :: signedChars (leftDigits c e - 1)

/-- Character list of str(Decimal) for a finite decimal. -/
def decStrChars (d : PyDecimal) : List Char :=
  (if d.sign then ['-'] else []) ++ decBody d.coeff d.exp

def decStr (d : PyDecimal) : String := String.mk (decStrChars d)

/-- Optional leading sign, as in the Decimal numeric-string grammar. -/
def takeSign (cs : List Char) : Bool × List Char :=
  match cs with
  | [] => (false, [])
  | c :: r => if c = '-' then (true, r) else if c = '+' then (false, r) else (false, c :: r)

/-- Split at the first exponent marker E or e, if any. -/
def splitAtExp : List Char → List Char × Option (List Char)
  | [] => ([], none)
  | c :: r =>
    if c = 'E' ∨ c = 'e' then ([], some r)
    else
      let p := splitAtExp r
      (c :: p.1, p.2)

/-- Split at the first point; no point gives an empty fraction part. -/
def splitAtDot : List Char → List Char × List Char
  | [] => ([], [])
  | c :: r =>
    if c = '.' then ([], r)
    else
      let p := splitAtDot r
      (c :: p.1, p.2)

/-- Signed integer text (optional sign, at least one digit), as in the
exponent field of the Decimal grammar. -/
def parseSignedInt (cs : List Char) : Option Int :=
  match cs with
  | [] => none
  | c :: r =>
    if c = '-' then (if r ≠ [] ∧ r.all Char.isDigit then some (-(charsVal r : Int)) else none)
    else if c = '+' then (if r ≠ [] ∧ r.all Char.isDigit then some ((charsVal r : Int)) else none)
    else if (c :: r).all Char.isDigit then some ((charsVal (c :: r) : Int)) else none

/-- Model of the Decimal constructor on a numeric string (finite values):
sign, mantissa split at the point, optional exponent; the coefficient is
int(intpart + fracpart) and the exponent is lowered by the fraction
length. -/
def decParseChars (cs : List Char) : Option PyDecimal :=
  let sp := takeSign cs
  let me := splitAtExp sp.2
  let expVal : Option Int :=
    match me.2 with
    | none => some 0
    | some ecs => parseSignedInt ecs
  match expVal with
  | none => none
  | some e =>
    let ipfp := splitAtDot me.1
    if ipfp.1.all Char.isDigit ∧ ipfp.2.all Char.isDigit ∧ ipfp.1 ++ ipfp.2 ≠ [] then
      some ⟨sp.1, charsVal (ipfp.1 ++ ipfp.2), e - ipfp.2.length⟩
    else none

def decParse (s : String) : Option PyDecimal := decParseChars s.toList

theorem isDigit_ne {c : Char} (h : c.isDigit = true) :
    c ≠ '-' ∧ c ≠ '+' ∧ c ≠ '.' ∧ c ≠ 'E' ∧ c ≠ 'e' := by
  refine ⟨?_, ?_, ?_, ?_, ?_⟩ <;> (intro he; subst he; exact absurd h (by decide))

theorem takeSign_neg (r : List Char) : takeSign ('-' :: r) = (true, r) := rfl

theorem takeSign_digit {c : Char} (h : c.isDigit = true) (r : List Char) :
    takeSign (c :: r) = (false, c :: r) := by
  obtain ⟨h1, h2, -⟩ := isDigit_ne h
  simp [takeSign, h1, h2]

theorem splitAtExp_no {cs : List Char} (h : ∀ c ∈ cs, c ≠ 'E' ∧ c ≠ 'e') :
    splitAtExp cs = (cs, none) := by
  induction cs with
  | nil => rfl
  | cons c r ih =>
    obtain ⟨h1, h2⟩ := h c (List.mem_cons_self c r)
    rw [splitAtExp, if_neg (by simp [h1, h2]),
      ih (fun x hx => h x (List.mem_cons_of_mem c hx))]

theorem splitAtExp_found {pre : List Char} (rest : List Char)
    (h : ∀ c ∈ pre, c ≠ 'E' ∧ c ≠ 'e') :
    splitAtExp (pre ++ 'E' :: rest) = (pre, some rest) := by
  induction pre with
  | nil => simp [splitAtExp]
  | cons c r ih =>
    obtain ⟨h1, h2⟩ := h c (List.mem_cons_self c r)
    rw [List.cons_append, splitAtExp, if_neg (by simp [h1, h2]),
      ih (fun x hx => h x (List.mem_cons_of_mem c hx))]

theorem splitAtDot_no {cs : List Char} (h : ∀ c ∈ cs, c ≠ '.') :
    splitAtDot cs = (cs, []) := by
  induction cs with
  | nil => rfl
  | cons c r ih =>
    rw [splitAtDot, if_neg (h c (List.mem_cons_self c r)),
      ih (fun x hx => h x (List.mem_cons_of_mem c hx))]

theorem splitAtDot_found {pre : List Char} (rest : List Char)
    (h : ∀ c ∈ pre, c ≠ '.') :
    splitAtDot (pre ++ '.' :: rest) = (pre, rest) := by
  induction pre with
  | nil => simp [splitAtDot]
  | cons c r ih =>
    rw [List.cons_append, splitAtDot, if_neg (h c (List.mem_cons_self c r)),
      ih (fun x hx => h x (List.mem_cons_of_mem c hx))]

theorem parseSignedInt_signedChars (i : Int) :
    parseSignedInt (signedChars i) = some i := by
  have hne := natChars_ne_nil i.natAbs
  have hdig : (natChars i.natAbs).all Char.isDigit = true :=
    List.all_eq_true.mpr (natChars_all_digit i.natAbs)
  by_cases hi : i < 0
  · have : signedChars i = '-' :: natChars i.natAbs := by simp [signedChars, hi]
    rw [this]
    show parseSignedInt ('-' :: natChars i.natAbs) = some i
    rw [parseSignedInt]
    simp only [if_pos rfl, hne, hdig, ne_eq, not_false_eq_true, and_self, if_true,
      charsVal_natChars]
    congr 1
    omega
  · have : signedChars i = '+' :: natChars i.natAbs := by simp [signedChars, hi]
    rw [this]
    show parseSignedInt ('+' :: natChars i.natAbs) = some i
    rw [parseSignedInt]
    rw [if_neg (by decide), if_pos rfl, if_pos (by exact ⟨hne, hdig⟩)]
    rw [charsVal_natChars]
    congr 1
    omega

theorem decBody_cons_digit (c : Nat) (e : Int) :
    ∃ c0 r, decBody c e = c0 :: r ∧ c0.isDigit = true := by
  obtain ⟨d0, tl, hds⟩ := List.exists_cons_of_ne_nil (natChars_ne_nil c)
  have hd0 : d0.isDigit = true := natChars_all_digit c d0 (by rw [hds]; exact List.mem_cons_self _ _)
  unfold decBody
  by_cases h1 : e ≤ 0 ∧ -6 < leftDigits c e
  · rw [if_pos h1]
    by_cases h2 : e = 0
    · rw [if_pos h2, hds]; exact ⟨d0, tl, rfl, hd0⟩
    · rw [if_neg h2]
      by_cases h3 : 0 < leftDigits c e
      · rw [if_pos h3]
        have hk : (leftDigits c e).toNat = (leftDigits c e).toNat - 1 + 1 := by omega
        rw [hds, hk, List.take_succ_cons, List.drop_succ_cons]
        exact ⟨d0, _, rfl, hd0⟩
      · rw [if_neg h3]
        exact ⟨'0', _, rfl, by decide⟩
  · rw [if_neg h1]
    cases tl with
    | nil => rw [hds]; exact ⟨d0, _, rfl, hd0⟩
    | cons c2 r => rw [hds]; exact ⟨d0, _, rfl, hd0⟩

theorem takeSign_body (sgn : Bool) {body : List Char} {c0 : Char} {r : List Char}
    (hb : body = c0 :: r) (h : c0.isDigit = true) :
    takeSign ((if sgn then ['-'] else []) ++ body) = (sgn, body) := by
  cases sgn
  · simpa [hb] using takeSign_digit h r
  · simp only [if_pos rfl, List.cons_append, List.nil_append]
    exact takeSign_neg body

theorem no_exp_of_digit_or_dot {cs : List Char}
    (h : ∀ x ∈ cs, x.isDigit = true ∨ x = '.') : ∀ x ∈ cs, x ≠ 'E' ∧ x ≠ 'e' := by
  intro x hx
  rcases h x hx with hd | hdot
  · exact ⟨(isDigit_ne hd).2.2.2.1, (isDigit_ne hd).2.2.2.2⟩
  · subst hdot; exact ⟨by decide, by decide⟩

theorem decParseChars_eq_noExp {cs body mant : List Char} {sgn : Bool} {ip fp : List Char}
    (h1 : takeSign cs = (sgn, body))
    (h2 : splitAtExp body = (mant, none))
    (h4 : splitAtDot mant = (ip, fp))
    (h5 : ip.all Char.isDigit = true) (h6 : fp.all Char.isDigit = true)
    (h7 : ip ++ fp ≠ []) :
    decParseChars cs = some ⟨sgn, charsVal (ip ++ fp), 0 - fp.length⟩ := by
  simp only [decParseChars, h1, h2, h4]
  rw [if_pos ⟨h5, h6, h7⟩]

theorem decParseChars_eq_exp {cs body mant ecs : List Char} {sgn : Bool}
    {e : Int} {ip fp : List Char}
    (h1 : takeSign cs = (sgn, body))
    (h2 : splitAtExp body = (mant, some ecs))
    (h3 : parseSignedInt ecs = some e)
    (h4 : splitAtDot mant = (ip, fp))
    (h5 : ip.all Char.isDigit = true) (h6 : fp.all Char.isDigit = true)
    (h7 : ip ++ fp ≠ []) :
    decParseChars cs = some ⟨sgn, charsVal (ip ++ fp), e - fp.length⟩ := by
  simp only [decParseChars, h1, h2, h3, h4]
  rw [if_pos ⟨h5, h6, h7⟩]

/-- Round trip at the character level: parsing the printed form of a
finite decimal restores exactly the same sign, coefficient and
exponent. -/
theorem decParseChars_decStrChars (d : PyDecimal) :
    decParseChars (decStrChars d) = some d := by
  obtain ⟨sgn, c, e⟩ := d
  obtain ⟨c0, r0, hbody, hc0⟩ := decBody_cons_digit c e
  have h1 : takeSign (decStrChars ⟨sgn, c, e⟩) = (sgn, decBody c e) :=
    takeSign_body sgn hbody hc0
  have hne := natChars_ne_nil c
  have hdig := natChars_all_digit c
  have hn1 : 0 < (natChars c).length := List.length_pos.mpr hne
  have hLD : leftDigits c e = e + (natChars c).length := rfl
  by_cases hA : e ≤ 0 ∧ -6 < leftDigits c e
  · by_cases h0 : e = 0
    · subst h0
      have hb : decBody c 0 = natChars c := by
        unfold decBody; rw [if_pos hA, if_pos rfl]
      rw [hb] at h1
      have h2 : splitAtExp (natChars c) = (natChars c, none) :=
        splitAtExp_no (no_exp_of_digit_or_dot (fun x hx => Or.inl (hdig x hx)))
      have h4 : splitAtDot (natChars c) = (natChars c, []) :=
        splitAtDot_no (fun x hx => (isDigit_ne (hdig x hx)).2.2.1)
      rw [decParseChars_eq_noExp h1 h2 h4 (List.all_eq_true.mpr hdig) rfl
        (by simp [hne])]
      simp only [Option.some_inj, PyDecimal.mk.injEq]
      refine ⟨trivial, ?_, ?_⟩
      · rw [List.append_nil, charsVal_natChars]
      · simp
    · by_cases hpos : 0 < leftDigits c e
      · have hb : decBody c e =
            (natChars c).take (leftDigits c e).toNat ++
              '.' :: (natChars c).drop (leftDigits c e).toNat := by
          unfold decBody; rw [if_pos hA, if_neg h0, if_pos hpos]
        rw [hb] at h1
        have htake : ∀ x ∈ (natChars c).take (leftDigits c e).toNat, x.isDigit = true :=
          fun x hx => hdig x (List.take_subset _ _ hx)
        have hdrop : ∀ x ∈ (natChars c).drop (leftDigits c e).toNat, x.isDigit = true :=
          fun x hx => hdig x (List.drop_subset _ _ hx)
        have h2 : splitAtExp ((natChars c).take (leftDigits c e).toNat ++
              '.' :: (natChars c).drop (leftDigits c e).toNat) =
            ((natChars c).take (leftDigits c e).toNat ++
              '.' :: (natChars c).drop (leftDigits c e).toNat, none) := by
          apply splitAtExp_no
          apply no_exp_of_digit_or_dot
          intro x hx
          rcases List.mem_append.mp hx with h | h
          · exact Or.inl (htake x h)
          · rcases List.mem_cons.mp h with h | h
            · exact Or.inr h
            · exact Or.inl (hdrop x h)
        have h4 : splitAtDot ((natChars c).take (leftDigits c e).toNat ++
              '.' :: (natChars c).drop (leftDigits c e).toNat) =
            ((natChars c).take (leftDigits c e).toNat,
              (natChars c).drop (leftDigits c e).toNat) :=
          splitAtDot_found _ (fun x hx => (isDigit_ne (htake x hx)).2.2.1)
        have h7 : (natChars c).take (leftDigits c e).toNat ++
            (natChars c).drop (leftDigits c e).toNat ≠ [] := by
          rw [List.take_append_drop]; exact hne
        rw [decParseChars_eq_noExp h1 h2 h4 (List.all_eq_true.mpr htake)
          (List.all_eq_true.mpr hdrop) h7]
        simp only [Option.some_inj, PyDecimal.mk.injEq]
        refine ⟨trivial, ?_, ?_⟩
        · rw [List.take_append_drop, charsVal_natChars]
        · have hlen : ((natChars c).drop (leftDigits c e).toNat).length =
              (natChars c).length - (leftDigits c e).toNat := List.length_drop _ _
          rw [hlen]
          omega
      · have hb : decBody c e = '0' :: '.' ::
            (List.replicate (-(leftDigits c e)).toNat '0' ++ natChars c) := by
          unfold decBody; rw [if_pos hA, if_neg h0, if_neg hpos]
        rw [hb] at h1
        have hfrac : ∀ x ∈ List.replicate (-(leftDigits c e)).toNat '0' ++ natChars c,
            x.isDigit = true := by
          intro x hx
          rcases List.mem_append.mp hx with h | h
          · rw [List.eq_of_mem_replicate h]; decide
          · exact hdig x h
        have h2 : splitAtExp ('0' :: '.' ::
              (List.replicate (-(leftDigits c e)).toNat '0' ++ natChars c)) =
            ('0' :: '.' ::
              (List.replicate (-(leftDigits c e)).toNat '0' ++ natChars c), none) := by
          apply splitAtExp_no
          apply no_exp_of_digit_or_dot
          intro x hx
          rcases List.mem_cons.mp hx with h | hx
          · subst h; exact Or.inl (by decide)
          rcases List.mem_cons.mp hx with h | hx
          · exact Or.inr h
          · exact Or.inl (hfrac x hx)
        have h4 : splitAtDot ('0' :: '.' ::
              (List.replicate (-(leftDigits c e)).toNat '0' ++ natChars c)) =
            (['0'], List.replicate (-(leftDigits c e)).toNat '0' ++ natChars c) := by
          have := @splitAtDot_found ['0']
            (List.replicate (-(leftDigits c e)).toNat '0' ++ natChars c)
            (by intro x hx; rcases List.mem_singleton.mp hx with rfl; decide)
          simpa using this
        rw [decParseChars_eq_noExp h1 h2 h4 (by decide)
          (List.all_eq_true.mpr hfrac) (by simp)]
        simp only [Option.some_inj, PyDecimal.mk.injEq]
        refine ⟨trivial, ?_, ?_⟩
        · have : (['0'] : List Char) ++
              (List.replicate (-(leftDigits c e)).toNat '0' ++ natChars c) =
              List.replicate ((-(leftDigits c e)).toNat + 1) '0' ++ natChars c := by
            rw [List.replicate_succ]
            simp
          rw [this, charsVal_replicate_zero_append, charsVal_natChars]
        · have hlen : (List.replicate (-(leftDigits c e)).toNat '0' ++
              natChars c).length =
              (-(leftDigits c e)).toNat + (natChars c).length := by
            simp
          rw [hlen]
          omega
  · have hb : decBody c e = sciMant (natChars c) ++ 'E' :: signedChars (leftDigits c e - 1) := by
      unfold decBody; rw [if_neg hA]
    rw [hb] at h1
    have hsci : ∀ x ∈ sciMant (natChars c), x.isDigit = true ∨ x = '.' := by
      intro x hx
      unfold sciMant at hx
      rcases hcs : natChars c with _ | ⟨d0, tl⟩
      · exact absurd hcs hne
      · rcases tl with _ | ⟨d1, tl2⟩
        · rw [hcs] at hx
          simp only at hx
          rcases List.mem_singleton.mp hx with rfl
          exact Or.inl (hdig x (by rw [hcs]; exact List.mem_cons_self _ _))
        · rw [hcs] at hx
          simp only at hx
          rcases List.mem_cons.mp hx with h | hx
          · subst h
            exact Or.inl (hdig _ (by rw [hcs]; exact List.mem_cons_self _ _))
          rcases List.mem_cons.mp hx with h | hx
          · exact Or.inr h
          · refine Or.inl (hdig x ?_)
            rw [hcs]
            exact List.mem_cons_of_mem _ hx
    have h2 : splitAtExp (sciMant (natChars c) ++ 'E' :: signedChars (leftDigits c e - 1)) =
        (sciMant (natChars c), some (signedChars (leftDigits c e - 1))) :=
      splitAtExp_found _ (no_exp_of_digit_or_dot hsci)
    have h3 : parseSignedInt (signedChars (leftDigits c e - 1)) = some (leftDigits c e - 1) :=
      parseSignedInt_signedChars _
    rcases hcs : natChars c with _ | ⟨d0, tl⟩
    · exact absurd hcs hne
    rcases htl : tl with _ | ⟨d1, tl2⟩
    · -- single digit, no point in the mantissa
      have hm : sciMant (natChars c) = [d0] := by rw [hcs, htl]; rfl
      have h4 : splitAtDot (sciMant (natChars c)) = ([d0], []) := by
        rw [hm]
        exact splitAtDot_no (by
          intro x hx
          rcases List.mem_singleton.mp hx with rfl
          exact (isDigit_ne (hdig x (by rw [hcs, htl]; exact List.mem_cons_self _ _))).2.2.1)
      rw [decParseChars_eq_exp h1 h2 h3 h4
        (by
          apply List.all_eq_true.mpr
          intro x hx
          rcases List.mem_singleton.mp hx with rfl
          exact hdig x (by rw [hcs, htl]; exact List.mem_cons_self _ _))
        rfl (by simp)]
      simp only [Option.some_inj, PyDecimal.mk.injEq]
      refine ⟨trivial, ?_, ?_⟩
      · have : ([d0] : List Char) ++ [] = natChars c := by rw [hcs, htl]; rfl
        rw [this, charsVal_natChars]
      · have hlen1 : (natChars c).length = 1 := by rw [hcs, htl]; rfl
        simp only [List.length_nil]
        rw [hLD] at *
        omega
    · -- at least two digits: point after the first digit
      have hm : sciMant (natChars c) = d0 :: '.' :: d1 :: tl2 := by
        rw [hcs, htl]; rfl
      have hd0 : d0.isDigit = true := hdig d0 (by rw [hcs]; exact List.mem_cons_self _ _)
      have htail : ∀ x ∈ d1 :: tl2, x.isDigit = true := by
        intro x hx
        refine hdig x ?_
        rw [hcs, htl]
        exact List.mem_cons_of_mem _ hx
      have h4 : splitAtDot (sciMant (natChars c)) = ([d0], d1 :: tl2) := by
        rw [hm]
        have := @splitAtDot_found [d0] (d1 :: tl2)
          (by intro x hx; rcases List.mem_singleton.mp hx with rfl
              exact (isDigit_ne hd0).2.2.1)
        simpa using this
      rw [decParseChars_eq_exp h1 h2 h3 h4
        (by
          apply List.all_eq_true.mpr
          intro x hx
          rcases List.mem_singleton.mp hx with rfl
          exact hd0)
        (List.all_eq_true.mpr htail) (by simp)]
      simp only [Option.some_inj, PyDecimal.mk.injEq]
      refine ⟨trivial, ?_, ?_⟩
      · have : ([d0] : List Char) ++ d1 :: tl2 = natChars c := by rw [hcs, htl]; rfl
        rw [this, charsVal_natChars]
      · have hlen1 : (natChars c).length = tl2.length + 2 := by
          rw [hcs, htl]; simp
        simp only [List.length_cons]
        rw [hLD] at *
        omega

theorem decParse_decStr (d : PyDecimal) : decParse (decStr d) = some d :=
  decParseChars_decStrChars d

/-! ## ISO 8601 formatting and parsing for datetimes

Models datetime.isoformat (zero-padded fields, microseconds appended
only when nonzero) and the subset of datetime.fromisoformat that the
isoformat output grammar exercises, including the constructor range
checks. -/

/-- Zero-padded fixed-width decimal text, as the %02d or %04d fields of
isoformat. -/
def padNum (w n : Nat) : List Char :=
  List.replicate (w - (natChars n).length) '0' ++ natChars n

def isLeapYear (y : Nat) : Bool :=
  decide (y % 4 = 0 ∧ (y % 100 ≠ 0 ∨ y % 400 = 0))

def daysInMonth (y m : Nat) : Nat :=
  if m = 2 then (if isLeapYear y then 29 else 28)
  else if m = 4 ∨ m = 6 ∨ m = 9 ∨ m = 11 then 30
  else 31

/-- Range constraints enforced by the datetime constructor; every Python
datetime object satisfies them. -/
def ValidDatetime (dt : PyDatetime) : Prop :=
  1 ≤ dt.year ∧ dt.year ≤ 9999 ∧ 1 ≤ dt.month ∧ dt.month ≤ 12 ∧
    1 ≤ dt.day ∧ dt.day ≤ daysInMonth dt.year dt.month ∧
    dt.hour ≤ 23 ∧ dt.minute ≤ 59 ∧ dt.second ≤ 59 ∧ dt.microsecond ≤ 999999

instance (dt : PyDatetime) : Decidable (ValidDatetime dt) := by
  unfold ValidDatetime; infer_instance

/-- Fractional-seconds suffix of isoformat: absent when the microsecond
field is zero. -/
def isoFracPart (us : Nat) : List Char :=
  if us = 0 then [] else '.' :: padNum 6 us

/-- Character list of datetime.isoformat() with the default T separator. -/
def isoFormatChars (dt : PyDatetime) : List Char :=
  padNum 4 dt.year ++ '-' :: (padNum 2 dt.month ++ '-' :: (padNum 2 dt.day ++
    'T' :: (padNum 2 dt.hour ++ ':' :: (padNum 2 dt.minute ++ ':' :: (padNum 2 dt.second ++
      isoFracPart dt.microsecond)))))

def isoFormat (dt : PyDatetime) : String := String.mk (isoFormatChars dt)

/-- Read exactly k digit characters as a number. -/
def readFixed (k : Nat) (cs : List Char) : Option (Nat × List Char) :=
  if (cs.take k).length = k ∧ (cs.take k).all Char.isDigit then
    some (charsVal (cs.take k), cs.drop k)
  else none

def expectC (c : Char) (cs : List Char) : Option (List Char) :=
  match cs with
  | d :: rest => if d = c then some rest else none
  | [] => none

/-- One to six fraction digits after the point, scaled to microseconds. -/
def parseFrac (cs : List Char) : Option Nat :=
  if cs ≠ [] ∧ cs.length ≤ 6 ∧ cs.all Char.isDigit then
    some (charsVal cs * 10 ^ (6 - cs.length))
  else none

/-- Model of datetime.fromisoformat on the grammar isoformat emits:
date, T separator, time, optional fraction, with constructor range
checks; anything else is a ValueError, modelled as none. -/
def fromIsoChars (cs : List Char) : Option PyDatetime :=
  match readFixed 4 cs with
  | none => none
  | some (y, cs) =>
  match expectC '-' cs with
  | none => none
  | some cs =>
  match readFixed 2 cs with
  | none => none
  | some (mo, cs) =>
  match expectC '-' cs with
  | none => none
  | some cs =>
  match readFixed 2 cs with
  | none => none
  | some (d, cs) =>
  match expectC 'T' cs with
  | none => none
  | some cs =>
  match readFixed 2 cs with
  | none => none
  | some (h, cs) =>
  match expectC ':' cs with
  | none => none
  | some cs =>
  match readFixed 2 cs with
  | none => none
  | some (mi, cs) =>
  match expectC ':' cs with
  | none => none
  | some cs =>
  match readFixed 2 cs with
  | none => none
  | some (s, cs) =>
  match cs with
  | [] =>
    if ValidDatetime ⟨y, mo, d, h, mi, s, 0⟩ then some ⟨y, mo, d, h, mi, s, 0⟩ else none
  | c :: rest =>
    if c = '.' then
      match parseFrac rest with
      | none => none
      | some us =>
        if ValidDatetime ⟨y, mo, d, h, mi, s, us⟩ then some ⟨y, mo, d, h, mi, s, us⟩ else none
    else none

def fromIso (s : String) : Option PyDatetime := fromIsoChars s.toList

theorem padNum_length {k n : Nat} (hk : 1 ≤ k) (h : n < 10 ^ k) :
    (padNum k n).length = k := by
  unfold padNum
  have := natChars_length_le hk h
  simp only [List.length_append, List.length_replicate]
  omega

theorem padNum_all_digit (k n : Nat) : ∀ c ∈ padNum k n, c.isDigit = true := by
  intro c hc
  rcases List.mem_append.mp hc with h | h
  · rw [List.eq_of_mem_replicate h]; decide
  · exact natChars_all_digit n c h

theorem charsVal_padNum (k n : Nat) : charsVal (padNum k n) = n := by
  unfold padNum
  rw [charsVal_replicate_zero_append, charsVal_natChars]

theorem readFixed_padNum {k n : Nat} (rest : List Char) (hk : 1 ≤ k) (h : n < 10 ^ k) :
    readFixed k (padNum k n ++ rest) = some (n, rest) := by
  have hlen := padNum_length hk h
  have htake : (padNum k n ++ rest).take k = padNum k n := List.take_left' hlen
  have hdrop : (padNum k n ++ rest).drop k = rest := List.drop_left' hlen
  unfold readFixed
  rw [htake, hdrop, if_pos ⟨hlen, List.all_eq_true.mpr (padNum_all_digit k n)⟩,
    charsVal_padNum]

theorem expectC_cons (c : Char) (rest : List Char) : expectC c (c :: rest) = some rest := by
  simp [expectC]

theorem parseFrac_padNum {us : Nat} (h : us < 10 ^ 6) :
    parseFrac (padNum 6 us) = some us := by
  have hlen : (padNum 6 us).length = 6 := padNum_length (by norm_num) h
  have hne : padNum 6 us ≠ [] := by
    intro he
    rw [he] at hlen
    exact absurd hlen (by decide)
  unfold parseFrac
  rw [if_pos ⟨hne, by rw [hlen], List.all_eq_true.mpr (padNum_all_digit 6 us)⟩]
  rw [hlen, charsVal_padNum]
  norm_num

/-- Round trip at the character level: parsing the isoformat output of a
valid datetime restores exactly the same field values. -/
theorem fromIsoChars_isoFormatChars {dt : PyDatetime} (hv : ValidDatetime dt) :
    fromIsoChars (isoFormatChars dt) = some dt := by
  obtain ⟨y, mo, d, h, mi, s, us⟩ := dt
  obtain ⟨h1, h2, h3, h4, h5, h6, h7, h8, h9, h10⟩ := hv
  simp only at h1 h2 h3 h4 h5 h6 h7 h8 h9 h10
  have hdm : daysInMonth y mo ≤ 31 := by
    unfold daysInMonth
    split
    · split <;> omega
    · split <;> omega
  unfold isoFormatChars fromIsoChars
  dsimp only
  rw [readFixed_padNum _ (by norm_num) (show y < 10 ^ 4 by omega)]
  dsimp only
  rw [expectC_cons]
  dsimp only
  rw [readFixed_padNum _ (by norm_num) (show mo < 10 ^ 2 by omega)]
  dsimp only
  rw [expectC_cons]
  dsimp only
  rw [readFixed_padNum _ (by norm_num) (show d < 10 ^ 2 by omega)]
  dsimp only
  rw [expectC_cons]
  dsimp only
  rw [readFixed_padNum _ (by norm_num) (show h < 10 ^ 2 by omega)]
  dsimp only
  rw [expectC_cons]
  dsimp only
  rw [readFixed_padNum _ (by norm_num) (show mi < 10 ^ 2 by omega)]
  dsimp only
  rw [expectC_cons]
  dsimp only
  rw [readFixed_padNum _ (by norm_num) (show s < 10 ^ 2 by omega)]
  dsimp only
  unfold isoFracPart
  by_cases hus : us = 0
  · subst hus
    rw [if_pos rfl]
    dsimp only
    rw [if_pos (show ValidDatetime ⟨y, mo, d, h, mi, s, 0⟩ from
      ⟨h1, h2, h3, h4, h5, h6, h7, h8, h9, by norm_num⟩)]
  · rw [if_neg hus]
    dsimp only
    rw [if_pos rfl]
    rw [parseFrac_padNum (show us < 10 ^ 6 by norm_num; omega)]
    dsimp only
    rw [if_pos (show ValidDatetime ⟨y, mo, d, h, mi, s, us⟩ from
      ⟨h1, h2, h3, h4, h5, h6, h7, h8, h9, h10⟩)]

theorem fromIso_isoFormat {dt : PyDatetime} (hv : ValidDatetime dt) :
    fromIso (isoFormat dt) = some dt :=
  fromIsoChars_isoFormatChars hv

/-! ## Timedelta as total seconds

A timedelta is exactly its microsecond count.  total_seconds() returns
an IEEE-754 double: CPython computes the integer microsecond total and
divides by 10^6 with correctly rounded true division, so the model is
round-to-nearest-double of the exact quotient.  The timedelta
constructor, for a float seconds argument, splits it with math.modf
(exact on doubles), multiplies the fractional part by 10^6 in double
arithmetic, rounds that product half-to-even to whole microseconds and
recombines with the integral part. -/

/-- Round-half-to-even to a whole number, as round() does on a double
and the timedelta constructor does on a fractional microsecond count. -/
def roundHalfEven (q : Rat) : Int :=
  let f := ⌊q⌋
  let r := q - f
  if r < 1 / 2 then f
  else if 1 / 2 < r then f + 1
  else if f % 2 = 0 then f else f + 1

/-- Round to the nearest 53-significant-bit value, ties to even: the
value an IEEE-754 double takes for an exact rational result.  Overflow
and subnormals are not modelled; every quantity these handlers produce
is far from both. -/
def roundToDouble (x : Rat) : Rat :=
  if x = 0 then 0
  else (roundHalfEven (x * 2 ^ (52 - Int.log 2 |x|)) : Rat) * 2 ^ (Int.log 2 |x| - 52)

/-- total_seconds(): the double nearest to microseconds / 10^6. -/
def tdTotalSeconds (totalUs : Int) : Rat :=
  roundToDouble ((totalUs : Rat) / 1000000)

/-- Integral part toward zero, as math.modf computes it (exactly, for a
double). -/
def ratTrunc (q : Rat) : Int := if 0 ≤ q then ⌊q⌋ else ⌈q⌉

/-- Microseconds of timedelta(seconds=f) for a double f: the modf split
is exact, the product of the fractional part with 10^6 is rounded to a
double, round() takes it to whole microseconds half-to-even, and the
pieces recombine into the normalized microsecond total. -/
def timedeltaFromSeconds (f : Rat) : Int :=
  ratTrunc f * 1000000 +
    roundHalfEven (roundToDouble ((f - ratTrunc f) * 1000000))

theorem roundHalfEven_intCast (n : Int) : roundHalfEven (n : Rat) = n := by
  unfold roundHalfEven
  rw [Int.floor_intCast]
  rw [if_pos]
  rw [sub_self]
  norm_num

theorem abs_roundHalfEven_sub (q : Rat) : |(roundHalfEven q : Rat) - q| ≤ 1 / 2 := by
  unfold roundHalfEven
  have h0 : (⌊q⌋ : Rat) ≤ q := Int.floor_le q
  have h1 : q < ⌊q⌋ + 1 := Int.lt_floor_add_one q
  by_cases hr : q - ⌊q⌋ < 1 / 2
  · rw [if_pos hr, abs_le]
    constructor <;> linarith
  · rw [if_neg hr]
    by_cases hr2 : 1 / 2 < q - ⌊q⌋
    · rw [if_pos hr2]
      push_cast
      rw [abs_le]
      constructor <;> linarith
    · rw [if_neg hr2]
      have heq : q - ⌊q⌋ = 1 / 2 := le_antisymm (not_lt.mp hr2) (not_lt.mp hr)
      by_cases hpar : ⌊q⌋ % 2 = 0
      · rw [if_pos hpar, abs_le]
        constructor <;> linarith
      · rw [if_neg hpar]
        push_cast
        rw [abs_le]
        constructor <;> linarith

theorem roundHalfEven_eq_of_near (n : Int) (q : Rat) (h : |q - n| < 1 / 2) :
    roundHalfEven q = n := by
  rw [abs_lt] at h
  obtain ⟨hlo, hhi⟩ := h
  unfold roundHalfEven
  by_cases hq : (n : Rat) ≤ q
  · have hf : ⌊q⌋ = n := by
      rw [Int.floor_eq_iff]
      exact ⟨hq, by linarith⟩
    rw [hf, if_pos (by linarith)]
  · push_neg at hq
    have hf : ⌊q⌋ = n - 1 := by
      rw [Int.floor_eq_iff]
      push_cast
      constructor <;> linarith
    rw [hf]
    rw [if_neg (by push_cast; intro hc; linarith)]
    rw [if_pos (by push_cast; linarith)]
    omega

theorem abs_ratTrunc_sub (q : Rat) : |q - ratTrunc q| < 1 := by
  unfold ratTrunc
  by_cases h : 0 ≤ q
  · rw [if_pos h, abs_lt]
    constructor
    · linarith [Int.floor_le q]
    · linarith [Int.lt_floor_add_one q]
  · rw [if_neg h, abs_lt]
    constructor
    · linarith [Int.ceil_lt_add_one q]
    · linarith [Int.le_ceil q]

theorem roundToDouble_zero : roundToDouble 0 = 0 := by
  unfold roundToDouble
  rw [if_pos rfl]

theorem abs_roundToDouble_sub {x : Rat} (hx : x ≠ 0) :
    |roundToDouble x - x| ≤ 2 ^ (Int.log 2 |x| - 53) := by
  unfold roundToDouble
  rw [if_neg hx]
  set L := Int.log 2 |x| with hLdef
  set m := x * 2 ^ (52 - L) with hmdef
  have hpow : (0:ℚ) < 2 ^ (L - 52) := zpow_pos (by norm_num) _
  have hxm : x = m * 2 ^ (L - 52) := by
    rw [hmdef, mul_assoc, ← zpow_add₀ (two_ne_zero)]
    rw [show 52 - L + (L - 52) = 0 by omega]
    rw [zpow_zero, mul_one]
  calc |(roundHalfEven m : ℚ) * 2 ^ (L - 52) - x|
      = |(roundHalfEven m : ℚ) - m| * 2 ^ (L - 52) := by
        conv_lhs => rw [hxm]
        rw [← sub_mul, abs_mul, abs_of_pos hpow]
    _ ≤ (1 / 2) * 2 ^ (L - 52) :=
        mul_le_mul_of_nonneg_right (abs_roundHalfEven_sub _) (le_of_lt hpow)
    _ = 2 ^ (L - 53) := by
        rw [show (1:ℚ)/2 = 2 ^ (-1:ℤ) by norm_num]
        rw [← zpow_add₀ (two_ne_zero)]
        congr 1
        omega

theorem intLog2_le_of_lt {x : Rat} {k : Int} (hx : 0 < x) (h : x < 2 ^ (k + 1)) :
    Int.log 2 x ≤ k := by
  by_contra hlt
  push_neg at hlt
  have h1 : (2:ℚ) ^ (k + 1) ≤ 2 ^ (Int.log 2 x) := zpow_le_zpow_right₀ one_le_two (by omega)
  have h2 : ((2:ℕ):ℚ) ^ (Int.log 2 x) ≤ x := Int.zpow_log_le_self (by norm_num) hx
  push_cast at h2
  linarith

theorem intLog2_eq {x : Rat} {L : Int} (hx : 0 < x)
    (h1 : (2:ℚ) ^ L ≤ x) (h2 : x < 2 ^ (L + 1)) : Int.log 2 x = L := by
  refine le_antisymm (intLog2_le_of_lt hx h2) ?_
  refine (Int.zpow_le_iff_le_log (by norm_num) hx).mp ?_
  push_cast
  exact h1

theorem roundToDouble_eq {x : Rat} {L n : Int} (hx : x ≠ 0)
    (hL : Int.log 2 |x| = L) (hn : |x * 2 ^ (52 - L) - (n : Rat)| < 1 / 2) :
    roundToDouble x = (n : Rat) * 2 ^ (L - 52) := by
  unfold roundToDouble
  rw [if_neg hx, hL, roundHalfEven_eq_of_near n _ hn]

theorem timedeltaFromSeconds_total {us : Int} (h : |us| < 2 ^ 33 * 1000000) :
    timedeltaFromSeconds (tdTotalSeconds us) = us := by
  by_cases h0 : us = 0
  · subst h0
    have h1 : tdTotalSeconds 0 = 0 := by
      unfold tdTotalSeconds
      norm_num [roundToDouble_zero]
    rw [h1]
    unfold timedeltaFromSeconds ratTrunc
    rw [if_pos le_rfl]
    have h2 : roundHalfEven (0:ℚ) = 0 := roundHalfEven_eq_of_near 0 0 (by norm_num)
    norm_num [roundToDouble_zero, h2]
  · have hx0 : ((us : ℚ) / 1000000) ≠ 0 :=
      div_ne_zero (Int.cast_ne_zero.mpr h0) (by norm_num)
    have habs : |(us : ℚ) / 1000000| < 2 ^ (33:ℤ) := by
      have hq : ((|us| : ℤ) : ℚ) < (((2:ℤ) ^ 33 * 1000000 : ℤ) : ℚ) := Int.cast_lt.mpr h
      push_cast at hq
      rw [abs_div, abs_of_pos (show (0:ℚ) < 1000000 by norm_num)]
      rw [div_lt_iff₀ (by norm_num)]
      calc |(us:ℚ)| < 8589934592000000 := hq
        _ = 2 ^ (33:ℤ) * 1000000 := by norm_num
    have hL32 : Int.log 2 |(us : ℚ) / 1000000| ≤ 32 := by
      refine intLog2_le_of_lt (abs_pos.mpr hx0) ?_
      rw [show (32:ℤ) + 1 = 33 by norm_num]
      exact habs
    have he1 : |roundToDouble ((us : ℚ) / 1000000) - (us : ℚ) / 1000000| ≤ 2 ^ (-21:ℤ) := by
      calc |roundToDouble ((us : ℚ) / 1000000) - (us : ℚ) / 1000000|
          ≤ 2 ^ (Int.log 2 |(us : ℚ) / 1000000| - 53) := abs_roundToDouble_sub hx0
        _ ≤ 2 ^ (-21:ℤ) := zpow_le_zpow_right₀ one_le_two (by omega)
    set f : ℚ := roundToDouble ((us : ℚ) / 1000000) with hfdef
    set i : ℤ := ratTrunc f with hidef
    have hfrac : |f - (i:ℚ)| < 1 := by
      have := abs_ratTrunc_sub f
      rwa [← hidef] at this
    set y : ℚ := (f - (i:ℚ)) * 1000000 with hydef
    have hyabs : |y| < 2 ^ (20:ℤ) := by
      rw [hydef, abs_mul, abs_of_pos (show (0:ℚ) < 1000000 by norm_num)]
      calc |f - (i:ℚ)| * 1000000 < 1 * 1000000 := by
            exact mul_lt_mul_of_pos_right hfrac (by norm_num)
        _ < 2 ^ (20:ℤ) := by norm_num
    have hdel : |roundToDouble y - y| ≤ 2 ^ (-34:ℤ) := by
      by_cases hy0 : y = 0
      · rw [hy0, roundToDouble_zero, sub_zero, abs_zero]
        positivity
      · calc |roundToDouble y - y| ≤ 2 ^ (Int.log 2 |y| - 53) := abs_roundToDouble_sub hy0
          _ ≤ 2 ^ (-34:ℤ) := by
            refine zpow_le_zpow_right₀ one_le_two ?_
            have h19 : Int.log 2 |y| ≤ 19 := by
              refine intLog2_le_of_lt (abs_pos.mpr hy0) ?_
              rw [show (19:ℤ) + 1 = 20 by norm_num]
              exact hyabs
            omega
    set n : ℤ := us - i * 1000000 with hndef
    have hyn : y = (n : ℚ) + (f - (us : ℚ) / 1000000) * 1000000 := by
      rw [hydef, hndef]
      push_cast
      ring
    have hnear : |roundToDouble y - (n:ℚ)| < 1 / 2 := by
      have hsplit : roundToDouble y - (n:ℚ)
          = (roundToDouble y - y) + (f - (us : ℚ) / 1000000) * 1000000 := by
        rw [hyn]
        ring
      rw [hsplit]
      calc |(roundToDouble y - y) + (f - (us : ℚ) / 1000000) * 1000000|
          ≤ |roundToDouble y - y| + |(f - (us : ℚ) / 1000000) * 1000000| := abs_add _ _
        _ ≤ 2 ^ (-34:ℤ) + 2 ^ (-21:ℤ) * 1000000 := by
            refine add_le_add hdel ?_
            rw [abs_mul, abs_of_pos (show (0:ℚ) < 1000000 by norm_num)]
            exact mul_le_mul_of_nonneg_right he1 (by norm_num)
        _ < 1 / 2 := by norm_num
    have hrhe : roundHalfEven (roundToDouble y) = n := roundHalfEven_eq_of_near n _ hnear
    show timedeltaFromSeconds (tdTotalSeconds us) = us
    unfold timedeltaFromSeconds tdTotalSeconds
    rw [← hfdef, ← hidef, ← hydef, hrhe]
    omega

theorem timedeltaFromSeconds_cex :
    timedeltaFromSeconds (tdTotalSeconds 8589934592000001) = 8589934592000002 := by
  have hx0 : ((8589934592000001 : ℤ) : ℚ) / 1000000 ≠ 0 := by norm_num
  have hL : Int.log 2 |((8589934592000001 : ℤ) : ℚ) / 1000000| = 33 := by
    refine intLog2_eq (abs_pos.mpr hx0) ?_ ?_
    · rw [abs_of_pos (by norm_num)]
      push_cast
      norm_num
    · rw [abs_of_pos (by norm_num)]
      push_cast
      norm_num
  have hser : tdTotalSeconds 8589934592000001
      = ((4503599627370497 : ℤ) : ℚ) * 2 ^ ((33:ℤ) - 52) := by
    unfold tdTotalSeconds
    refine roundToDouble_eq hx0 hL ?_
    push_cast
    rw [abs_lt]
    constructor <;> norm_num
  have hfval : tdTotalSeconds 8589934592000001 = (4503599627370497 : ℚ) / 524288 := by
    rw [hser]
    push_cast
    norm_num
  rw [hfval]
  unfold timedeltaFromSeconds
  have htr : ratTrunc ((4503599627370497 : ℚ) / 524288) = 8589934592 := by
    unfold ratTrunc
    rw [if_pos (by norm_num)]
    rw [Int.floor_eq_iff]
    push_cast
    constructor <;> norm_num
  rw [htr]
  have hyv : ((4503599627370497 : ℚ) / 524288 - ((8589934592 : ℤ) : ℚ)) * 1000000
      = 15625 / 8192 := by
    push_cast
    norm_num
  rw [hyv]
  have hL2 : Int.log 2 |(15625 / 8192 : ℚ)| = 0 := by
    refine intLog2_eq (abs_pos.mpr (by norm_num)) ?_ ?_
    · rw [abs_of_pos (by norm_num)]
      norm_num
    · rw [abs_of_pos (by norm_num)]
      norm_num
  have hfl : roundToDouble (15625 / 8192 : ℚ) = (15625 / 8192 : ℚ) := by
    have h := roundToDouble_eq (show (15625 / 8192 : ℚ) ≠ 0 by norm_num) hL2
      (show |(15625 / 8192 : ℚ) * 2 ^ ((52:ℤ) - 0) - ((8589934592000000 : ℤ) : ℚ)| < 1 / 2 by
        push_cast
        norm_num)
    rw [h]
    push_cast
    norm_num
  rw [hfl]
  have hr2 : roundHalfEven ((15625 : ℚ) / 8192) = 2 := by
    refine roundHalfEven_eq_of_near 2 _ ?_
    push_cast
    rw [abs_lt]
    constructor <;> norm_num
  rw [hr2]
  norm_num

/-! ## String forms of runtime values

pyStr models str() and pyRepr models repr() on the modelled values, as
used by sorted(key=str) in set serialization and by the sentinel check
str(default) != "PydanticUndefined".  Container reprs elide the escaping
of quote characters inside strings; float rendering shows the exact
rational (shortest-round-trip float text is not modelled). -/

/-- Quote character, as repr puts around strings. -/
def pyQuote : String := String.mk [Char.ofNat 39]

def intStr (i : Int) : String :=
  (if i < 0 then "-" else "") ++ String.mk (natChars i.natAbs)

def joinComma (xs : List String) : String := String.intercalate ", " xs

/-- Character list of time.isoformat(). -/
def timeIsoChars (t : PyTime) : List Char :=
  padNum 2 t.hour ++ ':' :: (padNum 2 t.minute ++ ':' :: (padNum 2 t.second ++
    isoFracPart t.microsecond))

def timeIso (t : PyTime) : String := String.mk (timeIsoChars t)

/-- str(datetime) uses a space separator instead of T. -/
def isoSpaceChars (dt : PyDatetime) : List Char :=
  padNum 4 dt.year ++ '-' :: (padNum 2 dt.month ++ '-' :: (padNum 2 dt.day ++
    ' ' :: (padNum 2 dt.hour ++ ':' :: (padNum 2 dt.minute ++ ':' :: (padNum 2 dt.second ++
      isoFracPart dt.microsecond)))))

/-- str(timedelta): optional day count with plural, then H:MM:SS and an
optional microsecond fraction, after floor-normalizing into days. -/
def tdStr (totalUs : Int) : String :=
  let days := totalUs.fdiv 86400000000
  let rem := (totalUs - days * 86400000000).toNat
  let secs := rem / 1000000
  let us := rem % 1000000
  let hh := secs / 3600
  let mm := secs % 3600 / 60
  let ss := secs % 60
  let base := String.mk (natChars hh) ++ ":" ++ String.mk (padNum 2 mm) ++ ":" ++
    String.mk (padNum 2 ss)
  let base :=
    if days ≠ 0 then
      intStr days ++ (if days = 1 ∨ days = -1 then " day, " else " days, ") ++ base
    else base
  if us ≠ 0 then base ++ "." ++ String.mk (padNum 6 us) else base

/-- repr(timedelta): keyword components, omitting zero ones. -/
def tdRepr (totalUs : Int) : String :=
  let days := totalUs.fdiv 86400000000
  let rem := (totalUs - days * 86400000000).toNat
  let secs := rem / 1000000
  let us := rem % 1000000
  let parts :=
    (if days ≠ 0 then ["days=" ++ intStr days] else []) ++
    (if secs ≠ 0 then ["seconds=" ++ String.mk (natChars secs)] else []) ++
    (if us ≠ 0 then ["microseconds=" ++ String.mk (natChars us)] else [])
  if parts.isEmpty then "datetime.timedelta(0)"
  else "datetime.timedelta(" ++ joinComma parts ++ ")"

/-- repr(datetime): positional fields, omitting trailing zero second and
microsecond. -/
def dtRepr (dt : PyDatetime) : String :=
  let base := [dt.year, dt.month, dt.day, dt.hour, dt.minute]
  let nums :=
    if dt.microsecond ≠ 0 then base ++ [dt.second, dt.microsecond]
    else if dt.second ≠ 0 then base ++ [dt.second]
    else base
  "datetime.datetime(" ++ joinComma (nums.map (fun n => String.mk (natChars n))) ++ ")"

/-- repr(time): positional fields, omitting trailing zero second and
microsecond. -/
def timeRepr (t : PyTime) : String :=
  let base := [t.hour, t.minute]
  let nums :=
    if t.microsecond ≠ 0 then base ++ [t.second, t.microsecond]
    else if t.second ≠ 0 then base ++ [t.second]
    else base
  "datetime.time(" ++ joinComma (nums.map (fun n => String.mk (natChars n))) ++ ")"

mutual

/-- Model of repr() on the modelled runtime values. -/
def pyRepr : PyValue → String
  | .undefined => "PydanticUndefined"
  | .vnone => "None"
  | .vbool b => if b then "True" else "False"
  | .vint n => intStr n
  | .vfloat q => toString q
  | .vstr s => pyQuote ++ s ++ pyQuote
  | .vdecimal d => "Decimal(" ++ pyQuote ++ decStr d ++ pyQuote ++ ")"
  | .vdatetime dt => dtRepr dt
  | .vtime t => timeRepr t
  | .vtimedelta us => tdRepr us
  | .venum cls mem v => "<" ++ cls ++ "." ++ mem ++ ": " ++ pyRepr v ++ ">"
  | .vlist xs => "[" ++ joinComma (pyReprList xs) ++ "]"
  | .vset xs =>
    if xs.isEmpty then "set()" else "\x7b" ++ joinComma (pyReprList xs) ++ "\x7d"
  | .vdict kvs => "\x7b" ++ joinComma (pyReprPairs kvs) ++ "\x7d"
  | .vmodel cls fields => cls ++ "(" ++ joinComma (pyModelPairs fields) ++ ")"

def pyReprList : List PyValue → List String
  | [] => []
  | v :: vs => pyRepr v :: pyReprList vs

def pyReprPairs : List (String × PyValue) → List String
  | [] => []
  | (k, v) :: kvs => (pyQuote ++ k ++ pyQuote ++ ": " ++ pyRepr v) :: pyReprPairs kvs

def pyModelPairs : List (String × PyValue) → List String
  | [] => []
  | (k, v) :: kvs => (k ++ "=" ++ pyRepr v) :: pyModelPairs kvs

end

/-- Model of str() on the modelled runtime values; containers fall back
to repr, as in Python. -/
def pyStr : PyValue → String
  | .undefined => "PydanticUndefined"
  | .vnone => "None"
  | .vbool b => if b then "True" else "False"
  | .vint n => intStr n
  | .vfloat q => toString q
  | .vstr s => s
  | .vdecimal d => decStr d
  | .vdatetime dt => String.mk (isoSpaceChars dt)
  | .vtime t => timeIso t
  | .vtimedelta us => tdStr us
  | .venum cls mem _ => cls ++ "." ++ mem
  | .vlist xs => pyRepr (.vlist xs)
  | .vset xs => pyRepr (.vset xs)
  | .vdict kvs => pyRepr (.vdict kvs)
  | .vmodel cls fields => pyRepr (.vmodel cls fields)

/-! ## Handler serialize and deserialize (type_handlers.py) -/

/-- DecimalHandler.serialize: return str(value). -/
def DecimalHandler_serialize (v : PyValue) : PyValue := .vstr (pyStr v)

/-- DecimalHandler.deserialize: return Decimal(str(raw)); text the
Decimal constructor rejects raises InvalidOperation, modelled as none. -/
def DecimalHandler_deserialize (raw : PyValue) : Option PyValue :=
  (decParse (pyStr raw)).map .vdecimal

/-- DatetimeHandler.serialize: value.isoformat() when the value is a
datetime, otherwise the value unchanged. -/
def DatetimeHandler_serialize : PyValue → PyValue
  | .vdatetime dt => .vstr (isoFormat dt)
  | v => v

/-- DatetimeHandler.deserialize: datetime.fromisoformat(raw) when raw is
a string (a ValueError is none), otherwise raw unchanged. -/
def DatetimeHandler_deserialize : PyValue → Option PyValue
  | .vstr s => (fromIso s).map .vdatetime
  | v => some v

/-- float(raw) on the numeric values; float() on other values raises
(none).  An int converts to the nearest double.  Numeric-string
conversion is not modelled (no claim needs it). -/
def pyFloat : PyValue → Option Rat
  | .vfloat q => some q
  | .vint n => some (roundToDouble (n : Rat))
  | .vbool b => some (if b then 1 else 0)
  | _ => none

/-- TimedeltaHandler.serialize: value.total_seconds() for a timedelta,
otherwise the value unchanged. -/
def TimedeltaHandler_serialize : PyValue → PyValue
  | .vtimedelta us => .vfloat (tdTotalSeconds us)
  | v => v

/-- TimedeltaHandler.deserialize: timedelta(seconds=float(raw)). -/
def TimedeltaHandler_deserialize (raw : PyValue) : Option PyValue :=
  (pyFloat raw).map (fun q => .vtimedelta (timedeltaFromSeconds q))

/-- SetHandler.serialize: list(value) when the value is a set (the
iteration sequence, in whatever order the set iterates), otherwise the
value unchanged. -/
def SetHandler_serialize : PyValue → PyValue
  | .vset xs => .vlist xs
  | v => v

/-! ## The YAML preparation pass (serialization.py _prepare_value)

Python sets are modelled by their iteration sequence: a list of distinct
elements whose order is an artifact of hashing, which is why the pass
sorts before emitting. -/

/-- sorted(xs, key=str): stable sort by the string form. -/
def sortedByStr (xs : List PyValue) : List PyValue :=
  xs.mergeSort (fun a b => decide (pyStr a ≤ pyStr b))

/-- Model of _prepare_value: recursively convert a value to its
YAML-serializable form.  model_dump on a nested model is modelled
shallowly (its fields are prepared recursively, which yields the same
nested dicts a deep dump would). -/
def pyPrepareValue : PyValue → PyValue
  | .vnone => .vnone
  | .vmodel _ fields => .vdict (fields.attach.map (fun x => (x.1.1, pyPrepareValue x.1.2)))
  | .vdict kvs => .vdict (kvs.attach.map (fun x => (x.1.1, pyPrepareValue x.1.2)))
  | .vlist xs => .vlist (xs.attach.map (fun x => pyPrepareValue x.1))
  | .vset xs => .vlist ((sortedByStr xs).attach.map (fun x => pyPrepareValue x.1))
  | .vdecimal d => .vstr (decStr d)
  | .venum _ _ v => v
  | .vdatetime dt => .vstr (isoFormat dt)
  | .vtime t => .vstr (timeIso t)
  | .vtimedelta us => .vfloat (tdTotalSeconds us)
  | v => v
termination_by v => sizeOf v
decreasing_by
  all_goals simp_wf
  · rcases x with ⟨⟨k, v⟩, hv⟩
    have h1 := List.sizeOf_lt_of_mem hv
    simp only [Prod.mk.sizeOf_spec] at h1
    simp only
    omega
  · rcases x with ⟨⟨k, v⟩, hv⟩
    have h1 := List.sizeOf_lt_of_mem hv
    simp only [Prod.mk.sizeOf_spec] at h1
    simp only
    omega
  · rcases x with ⟨v, hv⟩
    have h1 := List.sizeOf_lt_of_mem hv
    simp only
    omega
  · rcases x with ⟨v, hv⟩
    have hmem : v ∈ xs :=
      (List.Perm.mem_iff (List.mergeSort_perm xs _)).mp hv
    have h1 := List.sizeOf_lt_of_mem hmem
    simp only
    omega

theorem pyPrepareValue_vset (xs : List PyValue) :
    pyPrepareValue (.vset xs) = .vlist ((sortedByStr xs).map pyPrepareValue) := by
  rw [pyPrepareValue]
  rw [List.attach_map_val]

theorem sortedByStr_sorted (xs : List PyValue) :
    (sortedByStr xs).Pairwise (fun a b => pyStr a ≤ pyStr b) := by
  have h := @List.sorted_mergeSort PyValue (fun a b => decide (pyStr a ≤ pyStr b))
    (fun a b c hab hbc =>
      decide_eq_true_eq.mpr (le_trans (decide_eq_true_eq.mp hab) (decide_eq_true_eq.mp hbc)))
    (fun a b => by
      rcases le_total (pyStr a) (pyStr b) with h | h <;> simp [h])
    xs
  exact h.imp (fun hab => decide_eq_true_eq.mp hab)

theorem sortedByStr_perm (xs : List PyValue) : (sortedByStr xs).Perm xs :=
  List.mergeSort_perm xs _

theorem sortedByStr_strict {xs : List PyValue}
    (hd : xs.Pairwise (fun a b => pyStr a ≠ pyStr b)) :
    (sortedByStr xs).Pairwise (fun a b => pyStr a < pyStr b) := by
  have hsym : ∀ {a b : PyValue}, pyStr a ≠ pyStr b → pyStr b ≠ pyStr a :=
    fun h => h.symm
  have hx : (sortedByStr xs).Pairwise (fun a b => pyStr a ≠ pyStr b) :=
    (List.Perm.pairwise_iff hsym (sortedByStr_perm xs)).mpr hd
  exact ((sortedByStr_sorted xs).and hx).imp (fun hab => lt_of_le_of_ne hab.1 hab.2)

/-- The sort is characterized by its output: a strictly key-sorted
rearrangement. -/
theorem sortedByStr_eq {xs l : List PyValue}
    (hp : xs.Perm l) (hd : xs.Pairwise (fun a b => pyStr a ≠ pyStr b))
    (hs : l.Pairwise (fun a b => pyStr a < pyStr b)) :
    sortedByStr xs = l := by
  haveI : IsAntisymm PyValue (fun a b => pyStr a < pyStr b) :=
    ⟨fun a b h1 h2 => absurd (lt_trans h1 h2) (lt_irrefl _)⟩
  exact List.eq_of_perm_of_sorted ((sortedByStr_perm xs).trans hp)
    (sortedByStr_strict hd) hs

/-- A stable sort keyed by the string form is deterministic in the set,
not its iteration order, provided no two elements share a string form:
any two iteration orders of the same elements sort identically. -/
theorem sortedByStr_eq_of_perm {xs ys : List PyValue} (hp : xs.Perm ys)
    (hd : xs.Pairwise (fun a b => pyStr a ≠ pyStr b)) :
    sortedByStr xs = sortedByStr ys := by
  have hsym : ∀ {a b : PyValue}, pyStr a ≠ pyStr b → pyStr b ≠ pyStr a :=
    fun h => h.symm
  have hx : (sortedByStr xs).Pairwise (fun a b => pyStr a ≠ pyStr b) :=
    (List.Perm.pairwise_iff hsym (sortedByStr_perm xs)).mpr hd
  have hy : (sortedByStr ys).Pairwise (fun a b => pyStr a ≠ pyStr b) :=
    (List.Perm.pairwise_iff hsym ((sortedByStr_perm ys).trans hp.symm)).mpr hd
  have hsx : List.Sorted (fun a b => pyStr a < pyStr b) (sortedByStr xs) :=
    ((sortedByStr_sorted xs).and hx).imp (fun hab => lt_of_le_of_ne hab.1 hab.2)
  have hsy : List.Sorted (fun a b => pyStr a < pyStr b) (sortedByStr ys) :=
    ((sortedByStr_sorted ys).and hy).imp (fun hab => lt_of_le_of_ne hab.1 hab.2)
  haveI : IsAntisymm PyValue (fun a b => pyStr a < pyStr b) :=
    ⟨fun a b h1 h2 => absurd (lt_trans h1 h2) (lt_irrefl _)⟩
  exact List.eq_of_perm_of_sorted
    (((sortedByStr_perm xs).trans hp).trans (sortedByStr_perm ys).symm) hsx hsy

/-! ## Field introspection (introspection.py) -/

/-- Origin of a generic annotation, as get_origin classifies it. -/
inductive PyOrigin where
  | union
  | list
  | set
  | dict
  | literal
deriving Repr, DecidableEq

/-- Argument of a generic annotation, as get_args returns them: types
for unions and containers, values for Literal. -/
inductive PyArg where
  | ty (t : PyType)
  | val (v : PyValue)
deriving Repr

def pyGetOrigin : PyType → Option PyOrigin
  | .unionT _ => some .union
  | .listT _ => some .list
  | .setT _ => some .set
  | .dictT _ _ => some .dict
  | .literalT _ => some .literal
  | _ => none

def pyGetArgs : PyType → List PyArg
  | .unionT alts => alts.map .ty
  | .listT e => [.ty e]
  | .setT e => [.ty e]
  | .dictT k v => [.ty k, .ty v]
  | .literalT vs => vs.map .val
  | _ => []

def isNoneType : PyType → Bool
  | .noneType => true
  | _ => false

def pyIsEnumType : PyType → Bool
  | .enumT _ => true
  | _ => false

def pyIsModelType : PyType → Bool
  | .modelT _ => true
  | _ => false

/-- A default factory: invoking it either yields a value or raises. -/
def PyFactory := Except Unit PyValue

/-- Model of the FieldSpec dataclass, with the dataclass field defaults. -/
structure FieldSpec where
  name : String
  annot : Option PyType := none
  origin : Option PyOrigin := none
  args : List PyArg := []
  default : PyValue := .undefined
  default_factory : Option PyFactory := none
  description : Option String := none
  constraints : List (String × PyValue) := []
  is_required : Bool := true
  is_optional : Bool := false
  is_init : Bool := true
  inner_type : Option PyType := none
  is_enum : Bool := false
  is_literal : Bool := false
  is_pydantic_model : Bool := false
  is_union : Bool := false
  union_types : List PyType := []
  is_list : Bool := false
  is_set : Bool := false
  is_dict : Bool := false
  key_type : Option PyType := none
  value_type : Option PyType := none

/-- Model of _resolve_type.  The source has two textually identical
union branches (types.UnionType and typing.Union); both are the union
case here.  Only the single-non-None union branch recurses. -/
def _resolve_type (ann : PyType) : FieldSpec :=
  match ann with
  | .unionT alts =>
    let spec0 : FieldSpec :=
      { name := ""
        origin := pyGetOrigin (.unionT alts)
        args := pyGetArgs (.unionT alts) }
    let has_none := decide ((alts.filter (fun a => !isNoneType a)).length < alts.length)
    match hnn : alts.filter (fun a => !isNoneType a) with
    | [a] =>
      let inner := _resolve_type a
      { spec0 with
        is_optional := has_none
        inner_type :=
          match inner.inner_type with
          | some t => some t
          | none => some a
        is_enum := inner.is_enum
        is_literal := inner.is_literal
        is_pydantic_model := inner.is_pydantic_model
        is_list := inner.is_list
        is_set := inner.is_set
        is_dict := inner.is_dict
        union_types := inner.union_types
        is_union := inner.is_union
        key_type := inner.key_type
        value_type := inner.value_type }
    | nn =>
      if nn.length > 1 then
        { spec0 with
          is_optional := has_none
          is_union := true
          union_types := nn }
      else
        { spec0 with is_optional := has_none }
  | .listT e =>
    { name := ""
      origin := pyGetOrigin (.listT e)
      args := pyGetArgs (.listT e)
      is_list := true
      inner_type := some e }
  | .setT e =>
    { name := ""
      origin := pyGetOrigin (.setT e)
      args := pyGetArgs (.setT e)
      is_set := true
      inner_type := some e }
  | .dictT k v =>
    { name := ""
      origin := pyGetOrigin (.dictT k v)
      args := pyGetArgs (.dictT k v)
      is_dict := true
      key_type := some k
      value_type := some v }
  | .literalT vs =>
    { name := ""
      origin := pyGetOrigin (.literalT vs)
      args := pyGetArgs (.literalT vs)
      is_literal := true }
  | t =>
    if pyIsEnumType t then
      { name := ""
        origin := pyGetOrigin t
        args := pyGetArgs t
        is_enum := true
        inner_type := some t }
    else if pyIsModelType t then
      { name := ""
        origin := pyGetOrigin t
        args := pyGetArgs t
        is_pydantic_model := true
        inner_type := some t }
    else
      { name := ""
        origin := pyGetOrigin t
        args := pyGetArgs t
        inner_type := some t }
termination_by sizeOf ann
decreasing_by
  rename_i alts
  simp_wf
  have ha : a ∈ List.filter (fun a => !isNoneType a) alts := by
    rw [hnn]; exact List.mem_singleton_self a
  have h1 := List.sizeOf_lt_of_mem (List.mem_of_mem_filter ha)
  omega

/-- Per-field view of pydantic FieldInfo, with the already-extracted
constraint mapping (the extraction loop reads attribute metadata). -/
structure FieldInfo where
  annot : Option PyType := none
  default : PyValue := .undefined
  default_factory : Option PyFactory := none
  description : Option String := none
  constraints : List (String × PyValue) := []
  init : Option Bool := none
  frozen : Option Bool := none

/-- Model of the per-field body of introspect_model: resolve the
annotation, record metadata, then the default rules, the implicit
optional-defaults-to-absent rule, and the init/frozen mutability rules.
A field without an annotation is skipped (none). -/
def introspectField (name : String) (fi : FieldInfo) : Option FieldSpec :=
  match fi.annot with
  | none => none
  | some ann =>
    let r0 := _resolve_type ann
    let r1 :=
      { r0 with
        name := name
        annot := some ann
        description := fi.description
        constraints := fi.constraints }
    let r2 :=
      match fi.default with
      | .undefined =>
        match fi.default_factory with
        | some f =>
          { r1 with
            default_factory := some f
            is_required := false }
        | none => r1
      | dv =>
        { r1 with
          default := dv
          is_required := false }
    let r3 :=
      if r2.is_optional && r2.is_required then
        { r2 with
          default := .vnone
          is_required := false }
      else r2
    let r4 := if fi.init = some false then { r3 with is_init := false } else r3
    let r5 := if fi.frozen = some true then { r4 with is_init := false } else r4
    some r5

/-! ## Handler registry (type_handlers.py) -/

/-- A handler as the registry sees it: an identity tag (the class) and
its can_handle predicate.  The prompt behavior of an arbitrary handler
is passed abstractly where a model needs it. -/
structure Handler where
  tag : String
  canHandle : FieldSpec → Bool

def BoolHandler : Handler :=
  ⟨"BoolHandler", fun spec => match spec.inner_type with | some .bool => true | _ => false⟩

def StrHandler : Handler :=
  ⟨"StrHandler", fun spec => match spec.inner_type with | some .str => true | _ => false⟩

def IntHandler : Handler :=
  ⟨"IntHandler", fun spec => match spec.inner_type with | some .int => true | _ => false⟩

def FloatHandler : Handler :=
  ⟨"FloatHandler", fun spec => match spec.inner_type with | some .float => true | _ => false⟩

def DecimalHandler : Handler :=
  ⟨"DecimalHandler", fun spec => match spec.inner_type with | some .decimal => true | _ => false⟩

def EnumHandler : Handler := ⟨"EnumHandler", fun spec => spec.is_enum⟩

def LiteralHandler : Handler := ⟨"LiteralHandler", fun spec => spec.is_literal⟩

def DatetimeHandler : Handler :=
  ⟨"DatetimeHandler", fun spec => match spec.inner_type with | some .datetime => true | _ => false⟩

def TimeHandler : Handler :=
  ⟨"TimeHandler", fun spec => match spec.inner_type with | some .time => true | _ => false⟩

def TimedeltaHandler : Handler :=
  ⟨"TimedeltaHandler", fun spec => match spec.inner_type with | some .timedelta => true | _ => false⟩

def OptionalHandler : Handler := ⟨"OptionalHandler", fun spec => spec.is_optional⟩

def ListHandler : Handler := ⟨"ListHandler", fun spec => spec.is_list⟩

def SetHandler : Handler := ⟨"SetHandler", fun spec => spec.is_set⟩

def DictHandler : Handler := ⟨"DictHandler", fun spec => spec.is_dict⟩

def UnionHandler : Handler :=
  ⟨"UnionHandler", fun spec => spec.is_union && !spec.is_optional⟩

def PydanticModelHandler : Handler :=
  ⟨"PydanticModelHandler", fun spec => spec.is_pydantic_model⟩

/-- The seed list built by TypeHandlerRegistry.__init__, in order. -/
def defaultHandlers : List Handler :=
  [OptionalHandler, UnionHandler, ListHandler, SetHandler, DictHandler,
   BoolHandler, EnumHandler, LiteralHandler, DecimalHandler, IntHandler,
   FloatHandler, DatetimeHandler, TimeHandler, TimedeltaHandler,
   PydanticModelHandler, StrHandler]

/-- TypeHandlerRegistry.register: insert at the front when priority is
true (the default), else append. -/
def register (reg : List Handler) (h : Handler) (priority : Bool) : List Handler :=
  if priority then h :: reg else reg ++ [h]

/-- TypeHandlerRegistry.get_handler: the first handler whose can_handle
accepts the spec, or None. -/
def get_handler (reg : List Handler) (spec : FieldSpec) : Option Handler :=
  reg.find? (fun h => h.canHandle spec)

/-! ## OptionalHandler.prompt (type_handlers.py) -/

/-- The non-optional inner spec OptionalHandler.prompt builds before
delegating; fields it does not pass take the dataclass defaults. -/
def optionalInnerSpec (spec : FieldSpec) : FieldSpec :=
  { name := spec.name
    annot :=
      match spec.inner_type with
      | some t => some t
      | none => spec.annot
    inner_type := spec.inner_type
    description := spec.description
    constraints := spec.constraints
    is_required := false
    is_optional := false
    is_enum := spec.is_enum
    is_literal := spec.is_literal
    is_pydantic_model := spec.is_pydantic_model
    is_list := spec.is_list
    is_set := spec.is_set
    is_dict := spec.is_dict
    is_union := spec.is_union
    union_types := spec.union_types
    key_type := spec.key_type
    value_type := spec.value_type }

/-- What the operator does at a yes/no confirm prompt: an explicit
answer, accepting the preselected default with enter, or aborting (the
ask() call then returns None). -/
inductive OpAnswer where
  | yes
  | no
  | enter
  | abort

/-- Result of questionary.confirm(...).ask() for a given preselected
default. -/
def confirmResult (defaultB : Bool) : OpAnswer → Option Bool
  | .yes => some true
  | .no => some false
  | .enter => some defaultB
  | .abort => none

/-- Model of OptionalHandler.prompt.  hp is the prompt behavior of
whatever handler the registry returns (handler prompts do terminal I/O,
so their behavior is a parameter); op is the action of the operator at the
configure gate.  The gate preselects true exactly when the passed
default is not None; a falsy answer returns None without consulting any
handler; otherwise the inner non-optional spec is dispatched through the
registry and its handler is invoked. -/
def OptionalHandler_prompt (hp : Handler → FieldSpec → PyValue → PyValue)
    (spec : FieldSpec) (default : PyValue) (registry : Option (List Handler))
    (op : OpAnswer) : PyValue :=
  let gateDefault : Bool :=
    match default with
    | .vnone => false
    | _ => true
  match confirmResult gateDefault op with
  | some true =>
    match registry with
    | some reg =>
      match get_handler reg (optionalInnerSpec spec) with
      | some h => hp h (optionalInnerSpec spec) default
      | none => .vnone
    | none => .vnone
  | _ => .vnone

/-! ## Effective defaults in prompt_model (prompts.py) -/

/-- The factory fallback of prompt_model: invoke the factory, degrading
a raise to no default. -/
def factoryFallback (spec : FieldSpec) : PyValue :=
  match spec.default_factory with
  | some (.ok v) => v
  | some (.error _) => .vnone
  | none => .vnone

/-- Model of the effective-default computation in prompt_model: the
supplied default for the field name (dict.get, None when missing), else
the spec default when it is neither None nor the PydanticUndefined
sentinel (compared via str), else the guarded factory. -/
def effectiveDefault (defaults : List (String × PyValue)) (spec : FieldSpec) : PyValue :=
  let e0 := (defaults.lookup spec.name).getD .vnone
  match e0 with
  | .vnone =>
    match spec.default with
    | .vnone => factoryFallback spec
    | dv => if pyStr dv ≠ "PydanticUndefined" then dv else factoryFallback spec
  | v => v

/-! ## The validation repair loop (validation.py validate_and_fix)

The Python function mutates its data dict in place and loops until the
model validates or the operator declines; the model threads the dict
explicitly and returns it with the outcome.  The operator input for each
failure iteration is one RepairRound; a run that exhausts its rounds
while still failing is still waiting on input (none). -/

structure VErr where
  loc : List String
  msg : String

/-- Operator input for one failure iteration: the answer to the confirm
prompt, and for each field name the text the replacement prompt returns
(None when ask() returns None, in which case the entry is not written). -/
structure RepairRound where
  shouldFix : Bool
  answers : String → Option String

/-- dict assignment data[k] = v: overwrite in place, else append. -/
def setKey : List (String × PyValue) → String → PyValue → List (String × PyValue)
  | [], k, v => [(k, v)]
  | (k0, v0) :: rest, k, v =>
    if k0 = k then (k0, v) :: rest else (k0, v0) :: setKey rest k v

/-- The repair pass over the reported errors, in report order: for each
error with a non-empty loc, prompt for the top-level field name and
overwrite the entry with the raw string when the prompt returns one. -/
def applyRepairs (answers : String → Option String) (errs : List VErr)
    (data : List (String × PyValue)) : List (String × PyValue) :=
  errs.foldl
    (fun d e =>
      match e.loc with
      | [] => d
      | f :: _ =>
        match answers f with
        | some s => setKey d f (.vstr s)
        | none => d)
    data

/-- Model of validate_and_fix: validate, and on failure ask whether to
fix; declining returns None with the map as mutated so far, accepting
repairs every reported field and loops. -/
def validate_and_fix {M : Type} (validate : List (String × PyValue) → Except (List VErr) M) :
    List RepairRound → List (String × PyValue) →
      Option (Option M × List (String × PyValue))
  | [], data =>
    match validate data with
    | .ok m => some (some m, data)
    | .error _ => none
  | r :: rest, data =>
    match validate data with
    | .ok m => some (some m, data)
    | .error errs =>
      if r.shouldFix then
        validate_and_fix validate rest (applyRepairs r.answers errs data)
      else some (none, data)

/-- Top-level field names of a list of reported errors (errors with an
empty loc have none). -/
def topNames (errs : List VErr) : List String :=
  errs.filterMap (fun e => e.loc.head?)

/-- The field names reported in errors along a run of the repair loop,
following the same control flow as validate_and_fix. -/
def reportedTop {M : Type} (validate : List (String × PyValue) → Except (List VErr) M) :
    List RepairRound → List (String × PyValue) → List String
  | [], data =>
    match validate data with
    | .ok _ => []
    | .error errs => topNames errs
  | r :: rest, data =>
    match validate data with
    | .ok _ => []
    | .error errs =>
      if r.shouldFix then
        topNames errs ++ reportedTop validate rest (applyRepairs r.answers errs data)
      else topNames errs

/-! ## Claim theorems -/

/-- Claim C1 counterexample: the default seed list does NOT make get_handler
total.  The terminal StrHandler predicate requires inner_type to be
exactly str rather than accepting every descriptor, so a descriptor for
a plain unrecognized class (here bytes: no shape flag set, inner_type
bytes) matches zero seeded handlers and get_handler returns None. -/
theorem get_handler_none_for_unrecognized :
    get_handler defaultHandlers { name := "f", inner_type := some PyType.bytes } = none ∧
    StrHandler.canHandle { name := "f", inner_type := some PyType.bytes } = false :=
  ⟨rfl, rfl⟩

/-- Claim C1 (amended): get_handler returns a handler for every descriptor
that some seeded predicate accepts, in particular every descriptor whose
inner_type is str; the string handler is the fallback only for such
descriptors, not unconditionally, and prompt_model compensates at the
call site when get_handler returns None. -/
theorem get_handler_some_of_str (spec : FieldSpec)
    (h : spec.inner_type = some PyType.str) :
    (get_handler defaultHandlers spec).isSome = true := by
  apply List.find?_isSome.mpr
  refine ⟨StrHandler, ?_, ?_⟩
  · unfold defaultHandlers
    simp
  · show StrHandler.canHandle spec = true
    unfold StrHandler
    simp only
    rw [h]

theorem get_handler_some_of_str_witness :
    (get_handler defaultHandlers { name := "f", inner_type := some PyType.str }).isSome
      = true :=
  get_handler_some_of_str _ rfl

/-- Claim C2 counterexample: SetHandler.serialize is list(value), the raw
iteration sequence, with no sorting: for a set iterating as b then a it
emits that order, not the string-sorted order the claim asserts. -/
theorem set_serialize_not_sorted :
    SetHandler_serialize (.vset [.vstr "b", .vstr "a"]) =
      .vlist [.vstr "b", .vstr "a"] ∧
    sortedByStr [.vstr "b", .vstr "a"] = [.vstr "a", .vstr "b"] ∧
    PyValue.vlist [.vstr "b", .vstr "a"] ≠ .vlist [.vstr "a", .vstr "b"] := by
  refine ⟨rfl, ?_, ?_⟩
  · refine sortedByStr_eq (List.Perm.swap _ _ _) ?_ ?_
    · refine List.Pairwise.cons ?_ (List.pairwise_singleton _ _)
      intro b hb
      rcases List.mem_singleton.mp hb with rfl
      show ("b" : String) ≠ "a"
      simp
    · refine List.Pairwise.cons ?_ (List.pairwise_singleton _ _)
      intro b hb
      rcases List.mem_singleton.mp hb with rfl
      show ("a" : String) < "b"
      rw [String.lt_iff_toList_lt]
      decide
  · intro h
    simp at h

/-- Claim C2 (amended): the YAML serialization pass _prepare_value does sort a
set by the string form of each element and is therefore deterministic: two
iteration orders of the same elements (no two of which share a string
form) serialize to the same ordered sequence, and that sequence is
ordered by string form. -/
theorem prepare_set_deterministic_sorted :
    ∀ xs ys : List PyValue, xs.Perm ys →
      xs.Pairwise (fun a b => pyStr a ≠ pyStr b) →
      pyPrepareValue (.vset xs) = pyPrepareValue (.vset ys) ∧
      (sortedByStr xs).Pairwise (fun a b => pyStr a ≤ pyStr b) := by
  intro xs ys hp hd
  refine ⟨?_, sortedByStr_sorted xs⟩
  rw [pyPrepareValue_vset, pyPrepareValue_vset, sortedByStr_eq_of_perm hp hd]

theorem prepare_set_deterministic_sorted_witness :
    ([PyValue.vstr "b", PyValue.vstr "a"].Perm [PyValue.vstr "a", PyValue.vstr "b"]) ∧
    pyPrepareValue (.vset [.vstr "b", .vstr "a"]) =
      pyPrepareValue (.vset [.vstr "a", .vstr "b"]) := by
  have hperm : [PyValue.vstr "b", PyValue.vstr "a"].Perm
      [PyValue.vstr "a", PyValue.vstr "b"] := List.Perm.swap _ _ _
  have hpw : [PyValue.vstr "b", PyValue.vstr "a"].Pairwise
      (fun a b => pyStr a ≠ pyStr b) := by
    simp [List.pairwise_cons, pyStr]
  exact ⟨hperm, (prepare_set_deterministic_sorted _ _ hperm hpw).1⟩

/-- Claim C3 counterexample: the duration round trip is not exact for
every timedelta.  total_seconds() is a double, and beyond 2^33 seconds
(about 272 years; 2^53 microseconds is the point where consecutive
doubles are more than a microsecond apart, but rounding in the
constructor path already perturbs smaller totals) distinct microsecond
counts collide or shift: 8589934592000001 microseconds serializes to
the double 4503599627370497 / 524288 and deserializes to
8589934592000002 microseconds. -/
theorem timedelta_round_trip_not_exact :
    TimedeltaHandler_deserialize (TimedeltaHandler_serialize
      (.vtimedelta 8589934592000001)) = some (.vtimedelta 8589934592000002) ∧
    PyValue.vtimedelta 8589934592000002 ≠ PyValue.vtimedelta 8589934592000001 := by
  constructor
  · simp [TimedeltaHandler_serialize, TimedeltaHandler_deserialize, pyFloat,
      timedeltaFromSeconds_cex]
  · simp

/-- Claim C3 (amended): round-trip law for the cited handlers.  Decimals
round-trip through their exact decimal string (sign, coefficient and
exponent are restored exactly); durations round-trip through the
total_seconds() double provided the magnitude stays below 2^33 seconds,
where the accumulated double rounding of serialize and deserialize is
under half a microsecond (beyond that the trip can land on a different
timedelta); datetimes round-trip through isoformat text for every value
the datetime constructor admits. -/
theorem serialize_deserialize_round_trip :
    (∀ d : PyDecimal,
      DecimalHandler_deserialize (DecimalHandler_serialize (.vdecimal d)) =
        some (.vdecimal d)) ∧
    (∀ us : Int, |us| < 2 ^ 33 * 1000000 →
      TimedeltaHandler_deserialize (TimedeltaHandler_serialize (.vtimedelta us)) =
        some (.vtimedelta us)) ∧
    (∀ dt : PyDatetime, ValidDatetime dt →
      DatetimeHandler_deserialize (DatetimeHandler_serialize (.vdatetime dt)) =
        some (.vdatetime dt)) := by
  refine ⟨?_, ?_, ?_⟩
  · intro d
    simp [DecimalHandler_serialize, DecimalHandler_deserialize, pyStr, decParse_decStr d]
  · intro us h
    simp [TimedeltaHandler_serialize, TimedeltaHandler_deserialize, pyFloat,
      timedeltaFromSeconds_total h]
  · intro dt hv
    simp [DatetimeHandler_serialize, DatetimeHandler_deserialize, fromIso_isoFormat hv]

theorem serialize_deserialize_round_trip_witness :
    (|(5400000000 : Int)| < 2 ^ 33 * 1000000 ∧
      TimedeltaHandler_deserialize (TimedeltaHandler_serialize
        (.vtimedelta 5400000000)) = some (.vtimedelta 5400000000)) ∧
    (ValidDatetime ⟨2024, 1, 15, 10, 30, 0, 0⟩ ∧
      DatetimeHandler_deserialize (DatetimeHandler_serialize
        (.vdatetime ⟨2024, 1, 15, 10, 30, 0, 0⟩)) =
        some (.vdatetime ⟨2024, 1, 15, 10, 30, 0, 0⟩)) :=
  ⟨⟨by decide, serialize_deserialize_round_trip.2.1 5400000000 (by decide)⟩,
   ⟨by decide, serialize_deserialize_round_trip.2.2 _ (by decide)⟩⟩

/-- Used only to witness first-match selection: a caller-registered
strategy whose predicate also accepts bool descriptors. -/
def customHandler : Handler :=
  ⟨"Custom", fun spec => match spec.inner_type with | some .bool => true | _ => false⟩

theorem get_handler_first_match_aux (spec : FieldSpec) :
    ∀ (l1 l2 : List Handler) (h : Handler),
      (∀ g ∈ l1, g.canHandle spec = false) → h.canHandle spec = true →
      get_handler (l1 ++ h :: l2) spec = some h := by
  intro l1
  induction l1 with
  | nil =>
    intro l2 h _ hh
    unfold get_handler
    simp [List.find?_cons_of_pos, hh]
  | cons g l1 ih =>
    intro l2 h hnone hh
    unfold get_handler
    rw [List.cons_append, List.find?_cons_of_neg]
    · exact ih l2 h (fun g1 hg1 => hnone g1 (List.mem_cons_of_mem g hg1)) hh
    · simp [hnone g (List.mem_cons_self g l1)]

/-- Claim C4: get_handler returns the first handler in sequence order whose
predicate accepts the descriptor; register inserts at the front when
priority is true and appends when it is false; hence a front-registered
custom handler wins over any built-in that also matches. -/
theorem registry_order_selection :
    (∀ (reg : List Handler) (h : Handler), register reg h true = h :: reg) ∧
    (∀ (reg : List Handler) (h : Handler), register reg h false = reg ++ [h]) ∧
    (∀ (spec : FieldSpec) (l1 l2 : List Handler) (h : Handler),
      (∀ g ∈ l1, g.canHandle spec = false) → h.canHandle spec = true →
      get_handler (l1 ++ h :: l2) spec = some h) ∧
    (∀ (reg : List Handler) (h : Handler) (spec : FieldSpec),
      h.canHandle spec = true → get_handler (register reg h true) spec = some h) := by
  refine ⟨fun _ _ => rfl, fun _ _ => rfl, fun spec => get_handler_first_match_aux spec,
    ?_⟩
  intro reg h spec hh
  show get_handler (h :: reg) spec = some h
  unfold get_handler
  exact List.find?_cons_of_pos _ hh

theorem registry_order_selection_witness :
    BoolHandler.canHandle { name := "f", inner_type := some PyType.bool } = true ∧
    get_handler (register defaultHandlers customHandler true)
      { name := "f", inner_type := some PyType.bool } = some customHandler :=
  ⟨rfl, registry_order_selection.2.2.2 defaultHandlers customHandler
    { name := "f", inner_type := some PyType.bool } rfl⟩

/-! ## Lemmas about the repair loop state -/

theorem lookup_setKey_self (d : List (String × PyValue)) (k : String) (v : PyValue) :
    (setKey d k v).lookup k = some v := by
  induction d with
  | nil => simp [setKey, List.lookup]
  | cons kv rest ih =>
    obtain ⟨k0, v0⟩ := kv
    unfold setKey
    by_cases hk : k0 = k
    · subst hk
      simp [List.lookup]
    · rw [if_neg hk]
      simp only [List.lookup]
      rw [show (k == k0) = false by simp [Ne.symm hk]]
      exact ih

theorem lookup_setKey_other (d : List (String × PyValue)) {k k' : String} (v : PyValue)
    (h : k' ≠ k) : (setKey d k v).lookup k' = d.lookup k' := by
  induction d with
  | nil =>
    simp only [setKey, List.lookup]
    rw [show (k' == k) = false by simp [h]]
  | cons kv rest ih =>
    obtain ⟨k0, v0⟩ := kv
    unfold setKey
    by_cases hk : k0 = k
    · subst hk
      rw [if_pos rfl]
      simp only [List.lookup]
      rw [show (k' == k0) = false by simp [h]]
    · rw [if_neg hk]
      simp only [List.lookup]
      cases hbe : k' == k0
      · exact ih
      · rfl

/-- One repair step for one error, as folded by applyRepairs. -/
def repairStep (answers : String → Option String)
    (d : List (String × PyValue)) (e : VErr) : List (String × PyValue) :=
  match e.loc with
  | [] => d
  | f :: _ =>
    match answers f with
    | some s => setKey d f (.vstr s)
    | none => d

theorem applyRepairs_eq_foldl (answers : String → Option String) (errs : List VErr)
    (data : List (String × PyValue)) :
    applyRepairs answers errs data = errs.foldl (repairStep answers) data := rfl

theorem repairStep_lookup_other (answers : String → Option String)
    (d : List (String × PyValue)) (e : VErr) {f : String}
    (h : e.loc.head? ≠ some f) :
    (repairStep answers d e).lookup f = d.lookup f := by
  obtain ⟨loc, msg⟩ := e
  cases loc with
  | nil => rfl
  | cons f0 p =>
    have hne : f ≠ f0 := by
      simp only [List.head?_cons] at h
      intro he
      exact h (by rw [he])
    unfold repairStep
    dsimp only
    cases hans : answers f0 with
    | none => rfl
    | some s => exact lookup_setKey_other d _ hne

theorem applyRepairs_frame (answers : String → Option String) (errs : List VErr) :
    ∀ (data : List (String × PyValue)) (f : String),
      (∀ e ∈ errs, e.loc.head? ≠ some f) →
      (applyRepairs answers errs data).lookup f = data.lookup f := by
  induction errs with
  | nil => intro data f _; rfl
  | cons e rest ih =>
    intro data f hna
    rw [applyRepairs_eq_foldl, List.foldl_cons, ← applyRepairs_eq_foldl]
    rw [ih _ f (fun e1 he1 => hna e1 (List.mem_cons_of_mem e he1))]
    exact repairStep_lookup_other answers data e (hna e (List.mem_cons_self e rest))

theorem applyRepairs_preserve (answers : String → Option String) {f s : String}
    (hans : answers f = some s) (errs : List VErr) :
    ∀ data : List (String × PyValue), data.lookup f = some (.vstr s) →
      (applyRepairs answers errs data).lookup f = some (.vstr s) := by
  induction errs with
  | nil => intro data hd; exact hd
  | cons e rest ih =>
    intro data hd
    rw [applyRepairs_eq_foldl, List.foldl_cons, ← applyRepairs_eq_foldl]
    apply ih
    obtain ⟨loc, msg⟩ := e
    cases loc with
    | nil => exact hd
    | cons f0 p =>
      unfold repairStep
      dsimp only
      cases hans0 : answers f0 with
      | none => exact hd
      | some s0 =>
        by_cases hf : f0 = f
        · subst hf
          rw [hans0] at hans
          injection hans with hss
          subst hss
          exact lookup_setKey_self data f0 (.vstr s0)
        · rw [lookup_setKey_other data _ (Ne.symm hf)]
          exact hd

theorem applyRepairs_overwrite (answers : String → Option String) {e : VErr}
    {f : String} {p : List String} {s : String}
    (hloc : e.loc = f :: p) (hans : answers f = some s) :
    ∀ errs : List VErr, e ∈ errs → ∀ data : List (String × PyValue),
      (applyRepairs answers errs data).lookup f = some (.vstr s) := by
  intro errs
  induction errs with
  | nil => intro he; cases he
  | cons e0 rest ih =>
    intro he data
    rw [applyRepairs_eq_foldl, List.foldl_cons, ← applyRepairs_eq_foldl]
    rcases List.mem_cons.mp he with rfl | hmem
    · apply applyRepairs_preserve answers hans
      unfold repairStep
      rw [hloc]
      dsimp only
      rw [hans]
      exact lookup_setKey_self data f (.vstr s)
    · exact ih hmem _

/-- Claim C5: outcomes of the repair loop.  When validation of the current map
succeeds the loop returns that validated instance with the map
untouched; whenever a run returns, the result is either a validated
instance (the final map validates to it) or an absent result after the
operator declined repair on a failing map; there is no third returning
outcome. -/
theorem validate_and_fix_outcomes {M : Type}
    (validate : List (String × PyValue) → Except (List VErr) M) :
    ∀ (rounds : List RepairRound) (data : List (String × PyValue)),
      (∀ m, validate data = .ok m →
        validate_and_fix validate rounds data = some (some m, data)) ∧
      (∀ res d', validate_and_fix validate rounds data = some (res, d') →
        (∃ m, res = some m ∧ validate d' = .ok m) ∨
        (res = none ∧ (∃ errs, validate d' = .error errs) ∧
          ∃ r ∈ rounds, r.shouldFix = false)) := by
  intro rounds
  induction rounds with
  | nil =>
    intro data
    constructor
    · intro m hm
      unfold validate_and_fix
      rw [hm]
    · intro res d' hrun
      unfold validate_and_fix at hrun
      cases hv : validate data with
      | ok m =>
        rw [hv] at hrun
        simp only [Option.some.injEq, Prod.mk.injEq] at hrun
        obtain ⟨hres, hd⟩ := hrun
        subst hres
        subst hd
        exact Or.inl ⟨m, rfl, hv⟩
      | error errs =>
        rw [hv] at hrun
        exact absurd hrun (by simp)
  | cons r rest ih =>
    intro data
    constructor
    · intro m hm
      unfold validate_and_fix
      rw [hm]
    · intro res d' hrun
      unfold validate_and_fix at hrun
      cases hv : validate data with
      | ok m =>
        rw [hv] at hrun
        simp only [Option.some.injEq, Prod.mk.injEq] at hrun
        obtain ⟨hres, hd⟩ := hrun
        subst hres
        subst hd
        exact Or.inl ⟨m, rfl, hv⟩
      | error errs =>
        rw [hv] at hrun
        dsimp only at hrun
        by_cases hfix : r.shouldFix = true
        · rw [if_pos hfix] at hrun
          rcases (ih _).2 res d' hrun with h | ⟨h1, h2, rr, hrr, hrf⟩
          · exact Or.inl h
          · exact Or.inr ⟨h1, h2, rr, List.mem_cons_of_mem r hrr, hrf⟩
        · rw [if_neg hfix] at hrun
          simp only [Option.some.injEq, Prod.mk.injEq] at hrun
          obtain ⟨hres, hd⟩ := hrun
          subst hres
          subst hd
          exact Or.inr ⟨rfl, ⟨errs, hv⟩, r, List.mem_cons_self r rest,
            Bool.not_eq_true r.shouldFix ▸ hfix⟩

/-- Used by the loop witnesses: a validator accepting exactly maps whose
x entry is the string ok. -/
def demoValidate (data : List (String × PyValue)) : Except (List VErr) Nat :=
  match data.lookup "x" with
  | some (.vstr "ok") => .ok 7
  | _ => .error [⟨["x"], "bad"⟩]

def demoRounds : List RepairRound :=
  [⟨true, fun f => if f = "x" then some "ok" else none⟩]

theorem validate_and_fix_outcomes_witness :
    (∃ m, (some 7 : Option Nat) = some m ∧
      demoValidate [("x", PyValue.vstr "ok")] = .ok m) ∨
    ((some 7 : Option Nat) = none ∧
      (∃ errs, demoValidate [("x", PyValue.vstr "ok")] = .error errs) ∧
      ∃ r ∈ demoRounds, r.shouldFix = false) :=
  (validate_and_fix_outcomes demoValidate demoRounds [("x", PyValue.vstr "no")]).2
    (some 7) [("x", PyValue.vstr "ok")] rfl

/-- Claim C10: the repair loop writes through its data map.  For any reported
error with a non-empty location whose top-level field the operator
answers with a string, the map entry for that field ends the repair pass
holding exactly that raw string; and across a whole run (including one
ending in abort, which returns the mutated map), any field never
reported in an error keeps its original entry. -/
theorem validate_and_fix_mutation {M : Type}
    (validate : List (String × PyValue) → Except (List VErr) M) :
    (∀ (answers : String → Option String) (errs : List VErr)
       (data : List (String × PyValue)) (e : VErr) (f : String)
       (p : List String) (s : String),
        e ∈ errs → e.loc = f :: p → answers f = some s →
        (applyRepairs answers errs data).lookup f = some (.vstr s)) ∧
    (∀ (rounds : List RepairRound) (data : List (String × PyValue))
       (res : Option M) (d' : List (String × PyValue)) (f : String),
        validate_and_fix validate rounds data = some (res, d') →
        f ∉ reportedTop validate rounds data →
        d'.lookup f = data.lookup f) := by
  constructor
  · intro answers errs data e f p s he hloc hans
    exact applyRepairs_overwrite answers hloc hans errs he data
  · intro rounds
    induction rounds with
    | nil =>
      intro data res d' f hrun hnr
      unfold validate_and_fix at hrun
      cases hv : validate data with
      | ok m =>
        rw [hv] at hrun
        simp only [Option.some.injEq, Prod.mk.injEq] at hrun
        rw [← hrun.2]
      | error errs =>
        rw [hv] at hrun
        exact absurd hrun (by simp)
    | cons r rest ih =>
      intro data res d' f hrun hnr
      unfold validate_and_fix at hrun
      unfold reportedTop at hnr
      cases hv : validate data with
      | ok m =>
        rw [hv] at hrun
        simp only [Option.some.injEq, Prod.mk.injEq] at hrun
        rw [← hrun.2]
      | error errs =>
        rw [hv] at hrun
        rw [hv] at hnr
        dsimp only at hrun
        dsimp only at hnr
        by_cases hfix : r.shouldFix = true
        · rw [if_pos hfix] at hrun
          rw [if_pos hfix] at hnr
          rw [List.mem_append] at hnr
          push_neg at hnr
          have h1 := ih _ res d' f hrun hnr.2
          have h2 : (applyRepairs r.answers errs data).lookup f = data.lookup f := by
            apply applyRepairs_frame
            intro e he hhead
            exact hnr.1 (List.mem_filterMap.mpr ⟨e, he, hhead⟩)
          rw [h1, h2]
        · rw [if_neg hfix] at hrun
          simp only [Option.some.injEq, Prod.mk.injEq] at hrun
          rw [← hrun.2]

theorem validate_and_fix_mutation_witness :
    (applyRepairs (fun f => if f = "x" then some "fixed" else none)
      [⟨["x"], "bad"⟩] [("x", PyValue.vint 1), ("y", PyValue.vint 2)]).lookup "x" =
      some (PyValue.vstr "fixed") :=
  (validate_and_fix_mutation demoValidate).1
    (fun f => if f = "x" then some "fixed" else none)
    [⟨["x"], "bad"⟩] [("x", PyValue.vint 1), ("y", PyValue.vint 2)]
    ⟨["x"], "bad"⟩ "x" [] "fixed" (List.mem_singleton_self _) rfl rfl

/-- Claim C6: the optional gate.  Answering no yields absence without the
result depending on any handler behavior (so no inner handler is
invoked); the gate preselects yes exactly when a default value exists
(pressing enter behaves as yes when a default exists, as no otherwise);
answering yes delegates to the handler the registry selects for the
inner spec, which is re-flagged as non-optional. -/
theorem optional_gate_behavior :
    ∀ (hp hp2 : Handler → FieldSpec → PyValue → PyValue) (spec : FieldSpec)
      (default : PyValue) (registry : Option (List Handler)),
      (OptionalHandler_prompt hp spec default registry .no = .vnone ∧
        OptionalHandler_prompt hp spec default registry .no =
          OptionalHandler_prompt hp2 spec default registry .no ∧
        OptionalHandler_prompt hp spec default registry .abort = .vnone) ∧
      (default = .vnone →
        OptionalHandler_prompt hp spec default registry .enter = .vnone) ∧
      (default ≠ .vnone →
        OptionalHandler_prompt hp spec default registry .enter =
          OptionalHandler_prompt hp spec default registry .yes) ∧
      (∀ reg h, registry = some reg →
        get_handler reg (optionalInnerSpec spec) = some h →
        OptionalHandler_prompt hp spec default registry .yes =
          hp h (optionalInnerSpec spec) default) ∧
      (optionalInnerSpec spec).is_optional = false := by
  intro hp hp2 spec default registry
  refine ⟨⟨rfl, rfl, rfl⟩, ?_, ?_, ?_, rfl⟩
  · intro h
    subst h
    rfl
  · intro h
    cases default <;> first | (exact absurd rfl h) | rfl
  · intro reg h hreg hget
    subst hreg
    unfold OptionalHandler_prompt
    dsimp only [confirmResult]
    rw [hget]

theorem optional_gate_behavior_witness :
    OptionalHandler_prompt (fun _ _ _ => PyValue.vstr "x")
      { name := "f", inner_type := some PyType.str, is_optional := true }
      PyValue.vnone (some defaultHandlers) .yes =
      (fun _ _ _ => PyValue.vstr "x") StrHandler
        (optionalInnerSpec
          { name := "f", inner_type := some PyType.str, is_optional := true })
        PyValue.vnone :=
  (optional_gate_behavior (fun _ _ _ => PyValue.vstr "x") (fun _ _ _ => PyValue.vstr "x")
    { name := "f", inner_type := some PyType.str, is_optional := true }
    PyValue.vnone (some defaultHandlers)).2.2.2.1 defaultHandlers StrHandler rfl rfl

theorem resolve_is_required (ann : PyType) : (_resolve_type ann).is_required = true := by
  rw [_resolve_type.eq_def]
  split <;> first
    | rfl
    | (split <;> first | rfl | (split <;> first | rfl | (split <;> rfl)))

/-- Claim C7: a field whose annotation resolves to an optional shape and that
carries neither an explicit default nor a default factory is introspected
as not required, with absence (None) as its default. -/
theorem introspect_optional_default_absent (name : String) (fi : FieldInfo)
    (ann : PyType)
    (h1 : fi.annot = some ann)
    (h2 : (_resolve_type ann).is_optional = true)
    (h3 : fi.default = .undefined)
    (h4 : fi.default_factory = none) :
    ∃ spec, introspectField name fi = some spec ∧
      spec.is_required = false ∧ spec.default = .vnone := by
  unfold introspectField
  rw [h1, h3, h4]
  simp only [h2, resolve_is_required ann, Bool.and_self, if_true]
  refine ⟨_, rfl, ?_, ?_⟩
  · split <;> split <;> rfl
  · split <;> split <;> rfl

theorem introspect_optional_default_absent_witness :
    ∃ spec,
      introspectField "f" { annot := some (.unionT [.str, .noneType]) } = some spec ∧
      spec.is_required = false ∧ spec.default = .vnone := by
  apply introspect_optional_default_absent "f" _ (.unionT [.str, .noneType]) rfl _ rfl rfl
  rw [_resolve_type.eq_def]
  rfl

/-- Shared helper for C8: when the supplied default is absent and the
spec default is None or the PydanticUndefined sentinel, the computation
reaches the guarded factory. -/
theorem effectiveDefault_fallback {defaults : List (String × PyValue)}
    {spec : FieldSpec}
    (h1 : (defaults.lookup spec.name).getD .vnone = .vnone)
    (h2 : spec.default = .vnone ∨ pyStr spec.default = "PydanticUndefined") :
    effectiveDefault defaults spec = factoryFallback spec := by
  unfold effectiveDefault
  rw [h1]
  rcases hdef : spec.default <;> first
    | rfl
    | (dsimp only
       rcases h2 with h2 | h2
       · rw [hdef] at h2
         exact absurd h2 (by simp)
       · rw [hdef] at h2
         rw [if_neg (fun hc => hc h2)])

/-- Claim C8: the effective default for a field is the explicitly supplied
default when present (and not None), else the declared spec default when
it is a real value (neither None nor the PydanticUndefined sentinel),
else the invoked factory; a factory that raises degrades to no default
(None) and the computation still yields a value, it does not abort. -/
theorem effective_default_priority :
    ∀ (defaults : List (String × PyValue)) (spec : FieldSpec),
      (∀ v, defaults.lookup spec.name = some v → v ≠ .vnone →
        effectiveDefault defaults spec = v) ∧
      ((defaults.lookup spec.name).getD .vnone = .vnone →
        spec.default ≠ .vnone → pyStr spec.default ≠ "PydanticUndefined" →
        effectiveDefault defaults spec = spec.default) ∧
      ((defaults.lookup spec.name).getD .vnone = .vnone →
        (spec.default = .vnone ∨ pyStr spec.default = "PydanticUndefined") →
        ∀ v, spec.default_factory = some (.ok v) →
          effectiveDefault defaults spec = v) ∧
      ((defaults.lookup spec.name).getD .vnone = .vnone →
        (spec.default = .vnone ∨ pyStr spec.default = "PydanticUndefined") →
        ∀ err, spec.default_factory = some (.error err) →
          effectiveDefault defaults spec = .vnone) := by
  intro defaults spec
  refine ⟨?_, ?_, ?_, ?_⟩
  · intro v hv hne
    unfold effectiveDefault
    dsimp only
    rw [hv, Option.getD_some]
    cases v <;> first | (exact absurd rfl hne) | rfl
  · intro h1 h2 h3
    unfold effectiveDefault
    dsimp only
    rw [h1]
    dsimp only
    rcases hdef : spec.default <;> first
      | (exact absurd hdef h2)
      | (rw [hdef] at h3; exact absurd rfl h3)
      | (rw [hdef] at h3
         dsimp only
         rw [if_pos h3])
  · intro h1 h2 v hfac
    rw [effectiveDefault_fallback h1 h2]
    unfold factoryFallback
    rw [hfac]
  · intro h1 h2 err hfac
    rw [effectiveDefault_fallback h1 h2]
    unfold factoryFallback
    rw [hfac]

theorem effective_default_priority_witness :
    effectiveDefault []
      { name := "f", default := .undefined,
        default_factory := some (.error ()) } = .vnone :=
  (effective_default_priority [] _).2.2.2 rfl (Or.inr rfl) () rfl

/-- Claim C9: type resolution is a total function of the annotation: every
annotation maps to exactly one descriptor (the embedding is a Lean
function whose acceptance certifies the recursion terminates and no
exception escapes), and resolving the same annotation twice yields
structurally equal descriptors. -/
theorem resolve_total_deterministic :
    ∀ ann : PyType, (∃! spec : FieldSpec, _resolve_type ann = spec) ∧
      _resolve_type ann = _resolve_type ann :=
  fun ann => ⟨⟨_resolve_type ann, rfl, fun _ hy => hy.symm⟩, rfl⟩
